import Mathlib

/-!
Generics registry and substitution engine of `fo`.

A shallow embedding of `types/generics.go` and `transform/transform.go`.

* Go maps `map[string]V` are association lists `List (String × V)` with
  distinct keys; `m[k]` is `goLookup`, `m[k] = v` is `goInsert`, and a
  `range` loop visits the entries in list order (one of the orders the Go
  runtime may choose). A nil map is the empty list.
* A `panic` is the `Except.error` branch.
* `pkg.generics` of the package under check is threaded explicitly as a
  state of type `Generics`; every object belongs to that package.
* Types are finite trees. A variable keeps its name and its type, a named
  type keeps its symbol, its underlying type and its type parameters (the
  method list, which the substitution copies untouched, is left out), and a
  symbol keeps its name (its back reference to the type is left out).
* `Type.String()` lives in a file that is missing from the sources; it is
  the parameter `str` of every function that calls it. In the same way
  `check.rawExpr`, the scope lookup, `format.Node` and `sort.Slice` are the
  parameters `rawExpr`, `lookupParent`, `printNode` and `sortSlice`.
* A callback on an `astutil.Cursor` is the node standing at the cursor after
  the call (`none` after `c.Delete()`).
-/

namespace Fo

/-! ## Go maps -/

/-- Lookup `m[k]` with the comma-ok form: `none` when the key is absent. -/
def goLookup {α : Type} : List (String × α) → String → Option α
  | [], _ => none
  | (k, v) :: m, key => if k = key then some v else goLookup m key

/-- Assignment `m[k] = v`: overwrite the entry of `k` or add a new one. -/
def goInsert {α : Type} : List (String × α) → String → α → List (String × α)
  | [], key, val => [(key, val)]
  | (k, v) :: m, key, val =>
    if k = key then (k, val) :: m else (k, v) :: goInsert m key val

/-- Keys of a map in iteration order. -/
def goKeys {α : Type} (m : List (String × α)) : List String := m.map Prod.fst

/-! ## Type representation -/

/-- Type parameter; `String()` on it yields its identifier. -/
structure TypeParam where
  name : String
  deriving DecidableEq, Repr

/-- Modelled from the spec: the string form of a type parameter is its
identifier (substitution maps are keyed by parameter name). The method
`(*TypeParam).String` is missing from the sources. -/
def TypeParam.String (p : TypeParam) : String := p.name

/-- The part of an `Object` the registry reads: its name. -/
structure Object where
  name : String
  deriving DecidableEq, Repr

/-- Channel direction. -/
inductive ChanDir where
  | SendRecv
  | SendOnly
  | RecvOnly
  deriving DecidableEq, Repr

mutual
/-- Modelled from the spec: the sum of type variants of section 3; the Go
declarations of these types are missing from the sources. -/
inductive Ty where
  | Basic (name : String)
  | TypeParam (p : TypeParam)
  | Pointer (base : Ty)
  | Slice (elem : Ty)
  | Array (len : Int) (elem : Ty)
  | Chan (dir : ChanDir) (elem : Ty)
  | Map (key : Ty) (elem : Ty)
  | Tuple (vars : List Var)
  | Struct (s : Struct)
  | Signature (s : Signature)
  | Named (n : Named)
  | ConcreteNamed (c : ConcreteNamed)
  | ConcreteSignature (c : ConcreteSignature)
/-- Variable: a field, receiver, parameter or result. -/
inductive Var where
  | mk (name : String) (typ : Ty)
/-- Structure type. -/
inductive Struct where
  | mk (fields : List Var) (tags : List String)
/-- Function signature. -/
inductive Signature where
  | mk (recv : Option Var) (params : List Var) (results : List Var)
      (variadic : Bool) (typeParams : List TypeParam)
/-- Named type. -/
inductive Named where
  | mk (obj : Object) (underlying : Ty) (typeParams : List TypeParam)
/-- Concrete instantiation of a named type. -/
inductive ConcreteNamed where
  | mk (named : Named) (typeParams : List TypeParam) (typeMap : List (String × Ty))
/-- Concrete instantiation of a signature. -/
inductive ConcreteSignature where
  | mk (sig : Signature) (typeParams : List TypeParam) (typeMap : List (String × Ty))
end

abbrev TypeMap := List (String × Ty)

def Var.name : Var → String
  | .mk name _ => name

def Var.typ : Var → Ty
  | .mk _ typ => typ

def Struct.fields : Struct → List Var
  | .mk fields _ => fields

def Struct.tags : Struct → List String
  | .mk _ tags => tags

def Signature.recv : Signature → Option Var
  | .mk recv _ _ _ _ => recv

def Signature.params : Signature → List Var
  | .mk _ params _ _ _ => params

def Signature.results : Signature → List Var
  | .mk _ _ results _ _ => results

def Signature.variadic : Signature → Bool
  | .mk _ _ _ variadic _ => variadic

def Signature.typeParams : Signature → List TypeParam
  | .mk _ _ _ _ typeParams => typeParams

def Named.obj : Named → Object
  | .mk obj _ _ => obj

def Named.underlying : Named → Ty
  | .mk _ underlying _ => underlying

def Named.typeParams : Named → List TypeParam
  | .mk _ _ typeParams => typeParams

def ConcreteNamed.named : ConcreteNamed → Named
  | .mk named _ _ => named

def ConcreteNamed.typeParams : ConcreteNamed → List TypeParam
  | .mk _ typeParams _ => typeParams

def ConcreteNamed.typeMap : ConcreteNamed → TypeMap
  | .mk _ _ typeMap => typeMap

/-- Type switch `_, ok := t.(*TypeParam)`. -/
def Ty.isTypeParam : Ty → Bool
  | .TypeParam _ => true
  | _ => false

/-! ## Registry -/

structure GenericUsage where
  typeMap : TypeMap
  typ : Ty

structure GenericDecl where
  name : String
  typ : Ty
  typeParams : List TypeParam
  usages : List (String × GenericUsage)

abbrev Generics := List (String × GenericDecl)

/-- Panics of the two files. -/
inductive Err where
  | undefinedTypeParameter (name : String)
  | declarationNotFound (name : String)
  | nilDereference
  | unsupportedTypeParamExpr
  | indexOutOfRange
  deriving DecidableEq, Repr

/-- Body of the loop of `usageKey` and `concreteTypeName`:
`typeMap[param.String()].String()` for every parameter in order. A missing
entry is a nil `Type`, on which the method call panics. -/
def stringParams (str : Ty → String) (typeMap : TypeMap) :
    List TypeParam → Except Err (List String)
  | [] => .ok []
  | param :: rest =>
    match goLookup typeMap param.String with
    | none => .error .nilDereference
    | some t =>
      match stringParams str typeMap rest with
      | .error e => .error e
      | .ok ss => .ok (str t :: ss)

def usageKey (str : Ty → String) (typeMap : TypeMap) (typeParams : List TypeParam) :
    Except Err String :=
  match stringParams str typeMap typeParams with
  | .error e => .error e
  | .ok ss => .ok (",".intercalate ss)

def addGenericDecl (obj : Object) (objType : Ty) (typeParams : List TypeParam)
    (generics : Generics) : Generics :=
  goInsert generics obj.name
    { name := obj.name, typ := objType, typeParams := typeParams, usages := [] }

def addGenericUsage (str : Ty → String) (genObj : Object) (typ : Ty) (typeMap : TypeMap)
    (generics : Generics) : Except Err Generics :=
  if typeMap.any (fun kv => kv.2.isTypeParam) then .ok generics
  else
    match goLookup generics genObj.name with
    | none => .error (.declarationNotFound genObj.name)
    | some genDecl =>
      match usageKey str typeMap genDecl.typeParams with
      | .error e => .error e
      | .ok key =>
        .ok (goInsert generics genObj.name
          { genDecl with usages := goInsert genDecl.usages key { typeMap := typeMap, typ := typ } })

/-! ## Substitution engine -/

/-- Loop of `replaceTypesInConcreteNamed` building `newTypeMap`. -/
def newTypeMapLoop (typeMapping : TypeMap) : TypeMap → TypeMap → TypeMap
  | [], newTypeMap => newTypeMap
  | (key, given) :: rest, newTypeMap =>
    match given with
    | .TypeParam param =>
      match goLookup typeMapping param.String with
      | some inherited =>
        if inherited.isTypeParam then
          newTypeMapLoop typeMapping rest (goInsert newTypeMap key given)
        else newTypeMapLoop typeMapping rest (goInsert newTypeMap key inherited)
      | none => newTypeMapLoop typeMapping rest (goInsert newTypeMap key given)
    | _ => newTypeMapLoop typeMapping rest (goInsert newTypeMap key given)

mutual
def replaceTypes (str : Ty → String) (root : Ty) (typeMapping : TypeMap) (g : Generics) :
    Except Err (Ty × Generics) :=
  match root with
  | .TypeParam t =>
    match goLookup typeMapping t.String with
    | some newType =>
      if newType.isTypeParam then .ok (.TypeParam t, g) else .ok (newType, g)
    | none => .error (.undefinedTypeParameter t.String)
  | .Pointer base =>
    match replaceTypes str base typeMapping g with
    | .error e => .error e
    | .ok (b, g1) => .ok (.Pointer b, g1)
  | .Slice elem =>
    match replaceTypes str elem typeMapping g with
    | .error e => .error e
    | .ok (b, g1) => .ok (.Slice b, g1)
  | .Map key elem =>
    match replaceTypes str key typeMapping g with
    | .error e => .error e
    | .ok (k, g1) =>
      match replaceTypes str elem typeMapping g1 with
      | .error e => .error e
      | .ok (v, g2) => .ok (.Map k v, g2)
  | .Array len elem =>
    match replaceTypes str elem typeMapping g with
    | .error e => .error e
    | .ok (b, g1) => .ok (.Array len b, g1)
  | .Chan dir elem =>
    match replaceTypes str elem typeMapping g with
    | .error e => .error e
    | .ok (b, g1) => .ok (.Chan dir b, g1)
  | .Struct s =>
    match replaceTypesInStruct str s typeMapping g with
    | .error e => .error e
    | .ok (s1, g1) => .ok (.Struct s1, g1)
  | .Signature s =>
    match replaceTypesInSignature str s typeMapping g with
    | .error e => .error e
    | .ok (s1, g1) => .ok (.Signature s1, g1)
  | .Named n =>
    match replaceTypesInNamed str n typeMapping g with
    | .error e => .error e
    | .ok (n1, g1) => .ok (.Named n1, g1)
  | .ConcreteNamed c =>
    match replaceTypesInConcreteNamed str c typeMapping g with
    | .error e => .error e
    | .ok (c1, g1) => .ok (.ConcreteNamed c1, g1)
  | .Basic name => .ok (.Basic name, g)
  | .Tuple vars => .ok (.Tuple vars, g)
  | .ConcreteSignature c => .ok (.ConcreteSignature c, g)
termination_by structural root

/-- Loop shared by the three `for ... range` loops over variables: copy each
variable and substitute its type, in order. -/
def replaceTypesInVars (str : Ty → String) (vars : List Var) (typeMapping : TypeMap)
    (g : Generics) : Except Err (List Var × Generics) :=
  match vars with
  | [] => .ok ([], g)
  | .mk name typ :: rest =>
    match replaceTypes str typ typeMapping g with
    | .error e => .error e
    | .ok (t1, g1) =>
      match replaceTypesInVars str rest typeMapping g1 with
      | .error e => .error e
      | .ok (rest1, g2) => .ok (.mk name t1 :: rest1, g2)
termination_by structural vars

def replaceTypesInStruct (str : Ty → String) (root : Struct) (typeMapping : TypeMap)
    (g : Generics) : Except Err (Struct × Generics) :=
  match root with
  | .mk fields tags =>
    match replaceTypesInVars str fields typeMapping g with
    | .error e => .error e
    | .ok (fields1, g1) => .ok (.mk fields1 tags, g1)
termination_by structural root

/-- The block `if root.recv != nil` of `replaceTypesInSignature`:
`newRecv := *root.recv` declares a variable local to the block, so the
substituted receiver is computed (with its effects) and dropped. -/
def replaceTypesInRecv (str : Ty → String) (recv : Option Var) (typeMapping : TypeMap)
    (g : Generics) : Except Err Generics :=
  match recv with
  | none => .ok g
  | some (.mk _ rtyp) =>
    match replaceTypes str rtyp typeMapping g with
    | .error e => .error e
    | .ok (_, g1) => .ok g1
termination_by structural recv

def replaceTypesInSignature (str : Ty → String) (root : Signature) (typeMapping : TypeMap)
    (g : Generics) : Except Err (Signature × Generics) :=
  match root with
  | .mk recv params results variadic typeParams =>
    match replaceTypesInRecv str recv typeMapping g with
    | .error e => .error e
    | .ok g1 =>
      match replaceTypesInVars str params typeMapping g1 with
      | .error e => .error e
      | .ok (newParams, g2) =>
        match replaceTypesInVars str results typeMapping g2 with
        | .error e => .error e
        | .ok (newResults, g3) =>
          -- the outer `newRecv` is still nil here
          .ok (.mk none newParams newResults variadic typeParams, g3)
termination_by structural root

def replaceTypesInNamed (str : Ty → String) (root : Named) (typeMapping : TypeMap)
    (g : Generics) : Except Err (Named × Generics) :=
  match root with
  | .mk obj underlying typeParams =>
    match replaceTypes str underlying typeMapping g with
    | .error e => .error e
    | .ok (newUnderlying, g1) => .ok (.mk obj newUnderlying typeParams, g1)
termination_by structural root

def replaceTypesInConcreteNamed (str : Ty → String) (root : ConcreteNamed)
    (typeMapping : TypeMap) (g : Generics) : Except Err (ConcreteNamed × Generics) :=
  match root with
  | .mk named typeParams typeMap =>
    let newTypeMap := newTypeMapLoop typeMapping typeMap []
    match replaceTypesInNamed str named newTypeMap g with
    | .error e => .error e
    | .ok (newNamed, g1) =>
      -- `newNamed.typeParams = nil`; `newType.obj` is a copy of `root.obj`
      let newType := ConcreteNamed.mk (.mk named.obj newNamed.underlying []) typeParams newTypeMap
      match addGenericUsage str named.obj (.ConcreteNamed newType) newTypeMap g1 with
      | .error e => .error e
      | .ok g2 => .ok (newType, g2)
termination_by structural root
end

/-- Lines 105-115 of `Checker.concreteType`, case `*Named`, once
`createTypeMap` has produced `typeMap`: substitute in the generic named type,
clear its type-parameter list, wrap it with a copy of the original parameter
list and register the usage. -/
def concreteTypeNamed (str : Ty → String) (genType : Named) (typeMap : TypeMap)
    (g : Generics) : Except Err (Ty × Generics) :=
  match replaceTypesInNamed str genType typeMap g with
  | .error e => .error e
  | .ok (newNamed, g1) =>
    let newType := Ty.ConcreteNamed
      (.mk (.mk genType.obj newNamed.underlying []) genType.typeParams typeMap)
    match addGenericUsage str genType.obj newType typeMap g1 with
    | .error e => .error e
    | .ok g2 => .ok (newType, g2)

/-! ## Name mangling -/

/-- The call `strings.Replace(s, ".", "_", -1)`: every period becomes an
underscore (both are single characters). -/
def replacePeriods (s : String) : String :=
  String.mk (s.data.map (fun c => if c = '.' then '_' else c))

/-- Loop of `concreteTypeName` filling `stringParams`. -/
def safeParams (str : Ty → String) (typeMap : TypeMap) :
    List TypeParam → Except Err (List String)
  | [] => .ok []
  | param :: rest =>
    match goLookup typeMap param.String with
    | none => .error .nilDereference
    | some t =>
      match safeParams str typeMap rest with
      | .error e => .error e
      | .ok ss => .ok (replacePeriods (str t) :: ss)

def concreteTypeName (str : Ty → String) (decl : GenericDecl) (usg : GenericUsage) :
    Except Err String :=
  match safeParams str usg.typeMap decl.typeParams with
  | .error e => .error e
  | .ok ss => .ok (decl.name ++ "__" ++ "__".intercalate ss)

/-! ## Syntax trees and the expansion of declarations -/

/-- Modelled from the spec: the syntax nodes of section 4.6 that the
specializer inspects (identifiers, array types, index and instantiation
expressions); every other node keeps its kind and its children in field
order. Package `ast` is missing from the sources; positions and comments
are left out. -/
inductive Node where
  | Ident (name : String)
  | ArrayType (len : Option Node) (elt : Node)
  | IndexExpr (x : Node) (index : Node)
  | TypeParamExpr (x : Node) (params : List Node)
  | Other (kind : String) (children : List Node)

/-- Type-parameter list of a declaration. -/
structure TypeParamDecl where
  names : List String

/-- Type specification `type Name[TypeParams] Type`. -/
structure TypeSpec where
  name : String
  typeParams : Option TypeParamDecl
  type : Node

/-- Function declaration. -/
structure FuncDecl where
  recv : Option Node
  name : String
  typeParams : Option TypeParamDecl
  type : Node
  body : Option Node

/-- The callback of `replaceIdentsInScope` on one identifier. -/
def replaceIdent (str : Ty → String) (typeMap : TypeMap) (name : String) : String :=
  match goLookup typeMap name with
  | some typ => str typ
  | none => name

mutual
/-- Modelled from the spec: `replaceIdentsInScope` on a subtree. The
traversal `astutil.Apply(n, nil, post)` is missing from the sources; it
visits every node once, children first, and the callback replaces each
identifier whose text is a key of `typeMap` by the string form of the
substituted type (section 4.6). -/
def replaceIdentsInScope (str : Ty → String) (n : Node) (typeMap : TypeMap) : Node :=
  match n with
  | .Ident name => .Ident (replaceIdent str typeMap name)
  | .ArrayType len elt =>
    .ArrayType (replaceIdentsInScopeOpt str len typeMap) (replaceIdentsInScope str elt typeMap)
  | .IndexExpr x index =>
    .IndexExpr (replaceIdentsInScope str x typeMap) (replaceIdentsInScope str index typeMap)
  | .TypeParamExpr x params =>
    .TypeParamExpr (replaceIdentsInScope str x typeMap)
      (replaceIdentsInScopeList str params typeMap)
  | .Other kind children => .Other kind (replaceIdentsInScopeList str children typeMap)
termination_by structural n

def replaceIdentsInScopeOpt (str : Ty → String) (n : Option Node) (typeMap : TypeMap) :
    Option Node :=
  match n with
  | none => none
  | some m => some (replaceIdentsInScope str m typeMap)
termination_by structural n

def replaceIdentsInScopeList (str : Ty → String) (ns : List Node) (typeMap : TypeMap) :
    List Node :=
  match ns with
  | [] => []
  | m :: rest => replaceIdentsInScope str m typeMap :: replaceIdentsInScopeList str rest typeMap
termination_by structural ns
end

/-- `replaceIdentsInScope` on a type specification: the traversal visits the
name identifier, the type-parameter names and the type. -/
def TypeSpec.replaceIdentsInScope (str : Ty → String) (spec : TypeSpec) (typeMap : TypeMap) :
    TypeSpec :=
  { name := replaceIdent str typeMap spec.name
    typeParams := spec.typeParams.map
      (fun d => { names := d.names.map (replaceIdent str typeMap) })
    type := Fo.replaceIdentsInScope str spec.type typeMap }

/-- `replaceIdentsInScope` on a function declaration: receiver, name,
type-parameter names, signature and body. -/
def FuncDecl.replaceIdentsInScope (str : Ty → String) (decl : FuncDecl) (typeMap : TypeMap) :
    FuncDecl :=
  { recv := replaceIdentsInScopeOpt str decl.recv typeMap
    name := replaceIdent str typeMap decl.name
    typeParams := decl.typeParams.map
      (fun d => { names := d.names.map (replaceIdent str typeMap) })
    type := Fo.replaceIdentsInScope str decl.type typeMap
    body := replaceIdentsInScopeOpt str decl.body typeMap }

/-- The disambiguation at the head of `generateTypeSpecs`: a specification
without type parameters whose type is an array type with an identifier as
length becomes a specification with an empty parameter-name list and the
element type as type. -/
def disambiguateArrayType (typeSpec : TypeSpec) : TypeSpec :=
  match typeSpec.typeParams with
  | some _ => typeSpec
  | none =>
    match typeSpec.type with
    | .ArrayType (some (.Ident _)) elt =>
      { typeSpec with typeParams := some { names := [] }, type := elt }
    | _ => typeSpec

/-- Loop `for _, usg := range genericDecl.Usages()` of `generateTypeSpecs`. -/
def generateTypeSpecsLoop (str : Ty → String) (genericDecl : GenericDecl) (typeSpec : TypeSpec) :
    List (String × GenericUsage) → Except Err (List TypeSpec)
  | [] => .ok []
  | (_, usg) :: rest =>
    match concreteTypeName str genericDecl usg with
    | .error e => .error e
    | .ok newName =>
      let newTypeSpec : TypeSpec := { typeSpec with name := newName, typeParams := none }
      match generateTypeSpecsLoop str genericDecl typeSpec rest with
      | .error e => .error e
      | .ok results => .ok (newTypeSpec.replaceIdentsInScope str usg.typeMap :: results)

def generateTypeSpecs (str : Ty → String) (generics : Generics) (typeSpec : TypeSpec) :
    Except Err (List TypeSpec) :=
  match goLookup generics typeSpec.name with
  | none => .error (.declarationNotFound typeSpec.name)
  | some genericDecl =>
    generateTypeSpecsLoop str genericDecl (disambiguateArrayType typeSpec) genericDecl.usages

/-- Loop `for _, usg := range genericDecl.Usages()` of `generateFuncDecls`. -/
def generateFuncDeclsLoop (str : Ty → String) (genericDecl : GenericDecl) (funcDecl : FuncDecl) :
    List (String × GenericUsage) → Except Err (List FuncDecl)
  | [] => .ok []
  | (_, usg) :: rest =>
    match concreteTypeName str genericDecl usg with
    | .error e => .error e
    | .ok newName =>
      let newFuncDecl : FuncDecl := { funcDecl with name := newName, typeParams := none }
      match generateFuncDeclsLoop str genericDecl funcDecl rest with
      | .error e => .error e
      | .ok results => .ok (newFuncDecl.replaceIdentsInScope str usg.typeMap :: results)

def generateFuncDecls (str : Ty → String) (generics : Generics) (funcDecl : FuncDecl) :
    Except Err (List FuncDecl) :=
  match goLookup generics funcDecl.name with
  | none => .error (.declarationNotFound funcDecl.name)
  | some genericDecl => generateFuncDeclsLoop str genericDecl funcDecl genericDecl.usages

/-! ## Type-check hook: instantiation -/

/-- Errors that the two hooks push to the checker's error sink. -/
inductive CheckError where
  | wrongNumberOfTypeParameters (expected : Nat) (actual : Nat)
  | undeclaredName (name : String)
  | unsupportedInternalType
  | unexpectedGeneric
  deriving DecidableEq, Repr

/-- Modelled from the spec: the part of the checker that the hooks touch,
the registry of the package under check and the error sink. `check.errorf`
is missing from the sources; it appends to the sink and the checking goes
on (section 7). -/
structure Checker where
  generics : Generics
  errors : List CheckError

/-- The call `check.errorf(...)`. -/
def Checker.errorf (check : Checker) (e : CheckError) : Checker :=
  { check with errors := check.errors ++ [e] }

/-- The call `check.rawExpr(&x, typ, nil)` followed by reading `x.typ`: the
type of a type-argument expression (`none` for a nil type), with the effects
of the call on the checker. The function is missing from the sources. -/
abbrev RawExpr := Node → Checker → Except Err (Option Ty × Checker)

/-- Loop `for i, typ := range params` of `createTypeMap`. -/
def createTypeMapLoop (rawExpr : RawExpr) :
    List Node → List TypeParam → TypeMap → Checker → Except Err (TypeMap × Checker)
  | [], _, typeMap, check => .ok (typeMap, check)
  | _ :: _, [], _, _ => .error .indexOutOfRange
  | typ :: rest, genericParam :: genericParams, typeMap, check =>
    match rawExpr typ check with
    | .error e => .error e
    | .ok (some xtyp, check1) =>
      createTypeMapLoop rawExpr rest genericParams
        (goInsert typeMap genericParam.String xtyp) check1
    | .ok (none, check1) => createTypeMapLoop rawExpr rest genericParams typeMap check1

/-- The result `none` is the nil map of the arity mismatch. -/
def createTypeMap (rawExpr : RawExpr) (params : List Node) (genericParams : List TypeParam)
    (check : Checker) : Except Err (Option TypeMap × Checker) :=
  if params.length ≠ genericParams.length then
    .ok (none, check.errorf
      (.wrongNumberOfTypeParameters genericParams.length params.length))
  else
    match createTypeMapLoop rawExpr params genericParams [] check with
    | .error e => .error e
    | .ok (typeMap, check1) => .ok (some typeMap, check1)

/-- The hook `Checker.concreteType` on the instantiation expression
`x[params]`; `lookupParent` is the scope lookup of the identifier `x`
(missing from the sources). A nil map reads as the empty map. The result
`none` is the nil type of the last line. -/
def concreteType (str : Ty → String) (rawExpr : RawExpr)
    (lookupParent : String → Option Object) (x : Node) (params : List Node) (genType : Ty)
    (check : Checker) : Except Err (Option Ty × Checker) :=
  match genType with
  | .Named genType =>
    match createTypeMap rawExpr params genType.typeParams check with
    | .error e => .error e
    | .ok (typeMap, check1) =>
      match concreteTypeNamed str genType (typeMap.getD []) check1.generics with
      | .error e => .error e
      | .ok (newType, g) => .ok (some newType, { check1 with generics := g })
  | .Signature genType =>
    let found : Option Object × Checker :=
      match x with
      | .Ident name =>
        match lookupParent name with
        | some obj => (some obj, check)
        | none => (none, check.errorf (.undeclaredName name))
      | _ => (none, check.errorf .unsupportedInternalType)
    match createTypeMap rawExpr params genType.typeParams found.2 with
    | .error e => .error e
    | .ok (typeMap, check1) =>
      match replaceTypesInSignature str genType (typeMap.getD []) check1.generics with
      | .error e => .error e
      | .ok (newSig, g) =>
        let newType := Ty.ConcreteSignature
          (.mk (.mk newSig.recv newSig.params newSig.results newSig.variadic [])
            genType.typeParams (typeMap.getD []))
        if (typeMap.getD []).any (fun kv => kv.2.isTypeParam) then
          .ok (some newType, { check1 with generics := g })
        else
          match found.1 with
          | none => .error .nilDereference
          | some genObj =>
            match addGenericUsage str genObj newType (typeMap.getD []) g with
            | .error e => .error e
            | .ok g1 => .ok (some newType, { check1 with generics := g1 })
  | _ => .ok (none, check.errorf .unexpectedGeneric)

/-! ## Reference rewriting and expansion of declaration groups -/

/-- The function `concreteTypeExpr` on the instantiation expression
`x[params]`; `printNode` is the text that `format.Node` writes for a
parameter expression (the printer is missing from the sources). -/
def concreteTypeExpr (printNode : Node → String) (x : Node) (params : List Node) :
    Except Err Node :=
  match x with
  | .Ident name =>
    .ok (.Ident (name ++ "__" ++
      "__".intercalate (params.map (fun param => replacePeriods (printNode param)))))
  | _ => .error .unsupportedTypeParamExpr

/-- The callback that `replaceGenericIdents` returns, as the node standing
at the cursor after the call: the argument of `c.Replace`, or the node
itself when the callback replaces nothing. -/
def replaceGenericIdents (printNode : Node → String) (generics : Generics) (n : Node) :
    Except Err Node :=
  match n with
  | .TypeParamExpr x params => concreteTypeExpr printNode x params
  | .IndexExpr x index =>
    match x with
    | .Ident name =>
      match goLookup generics name with
      | some _ => concreteTypeExpr printNode x [index]
      | none => .ok n
    | _ => .ok n
  | _ => .ok n

/-- Specification of a declaration group: a type specification or another
one (import, constant or variable specification). -/
inductive Spec where
  | TypeSpec (s : TypeSpec)
  | Other (n : Node)

/-- Declaration group. -/
structure GenDecl where
  tok : String
  specs : List Spec

/-- The comparison passed to `sort.Slice` in `generateConcreteTypes`. -/
def specLess (a b : Spec) : Bool :=
  match a with
  | .TypeSpec iSpec =>
    match b with
    | .TypeSpec jSpec => decide (iSpec.name < jSpec.name)
    | _ => false
  | _ => false

/-- Loop `for _, spec := range n.Specs` of `generateConcreteTypes`, on the
pair of `newTypeSpecs` and `used`. -/
def generateConcreteTypesLoop (str : Ty → String) (generics : Generics) :
    List Spec → List Spec × Bool → Except Err (List Spec × Bool)
  | [], acc => .ok acc
  | spec :: rest, (newTypeSpecs, used) =>
    match spec with
    | .Other _ => generateConcreteTypesLoop str generics rest (newTypeSpecs ++ [spec], true)
    | .TypeSpec typeSpec =>
      match goLookup generics typeSpec.name with
      | none => generateConcreteTypesLoop str generics rest (newTypeSpecs ++ [spec], true)
      | some _ =>
        match generateTypeSpecs str generics typeSpec with
        | .error e => .error e
        | .ok specs =>
          generateConcreteTypesLoop str generics rest
            (newTypeSpecs ++ specs.map Spec.TypeSpec, used)

/-- The callback of `generateConcreteTypes` on a declaration group:
`some d` when the group at the cursor is `d` after the call, `none` when the
callback deletes it. `sortSlice` is `sort.Slice` of the Go library, applied
with the comparison `specLess`. -/
def generateConcreteTypes (str : Ty → String)
    (sortSlice : (Spec → Spec → Bool) → List Spec → List Spec) (generics : Generics)
    (n : GenDecl) : Except Err (Option GenDecl) :=
  match generateConcreteTypesLoop str generics n.specs ([], false) with
  | .error e => .error e
  | .ok (newTypeSpecs, used) =>
    if newTypeSpecs.length > 0 then
      .ok (some { n with specs := sortSlice specLess newTypeSpecs })
    else if !used then .ok none
    else .ok (some n)

/-! ## Specification-side notions and sample data -/

/-- Value that the claim about concrete instantiations prescribes for a map
entry `given` under an outer map `sigma`: the binding of `given` in `sigma`
when `given` is a type parameter bound to a non-parameter type, `given`
itself otherwise. -/
def inheritedValue (sigma : TypeMap) (given : Ty) : Ty :=
  match given with
  | .TypeParam q =>
    match goLookup sigma q.String with
    | some t => if t.isTypeParam then given else t
    | none => given
  | _ => given

/-- Modelled from the spec: a string form for the sample data. Basic and
named types print their (qualified) name as in `pkg.T` (section 4.7), type
parameters print their identifier, pointer, slice, map and channel types
use the surface syntax. The printer behind `Type.String()` is missing from
the sources; the theorems below hold for every string form `str`. -/
def typeString : Ty → String
  | .Basic name => name
  | .TypeParam p => p.name
  | .Pointer base => "*" ++ typeString base
  | .Slice elem => "[]" ++ typeString elem
  | .Array _ elem => "[...]" ++ typeString elem
  | .Chan _ elem => "chan " ++ typeString elem
  | .Map key elem => "map[" ++ typeString key ++ "]" ++ typeString elem
  | .Named (.mk obj _ _) => obj.name
  | .ConcreteNamed (.mk (.mk obj _ _) _ _) => obj.name
  | .Tuple _ => "tuple"
  | .Struct _ => "struct"
  | .Signature _ => "func"
  | .ConcreteSignature _ => "func"

mutual
/-- Type parameters occurring in a type: as the type itself, in an element,
key, value, field, receiver, parameter, result or underlying type, or in a
value of the substitution map of a concrete instantiation. -/
def typeParamsIn (root : Ty) : List TypeParam :=
  match root with
  | .Basic _ => []
  | .TypeParam p => [p]
  | .Pointer base => typeParamsIn base
  | .Slice elem => typeParamsIn elem
  | .Array _ elem => typeParamsIn elem
  | .Chan _ elem => typeParamsIn elem
  | .Map key elem => typeParamsIn key ++ typeParamsIn elem
  | .Tuple vars => typeParamsInVars vars
  | .Struct (.mk fields _) => typeParamsInVars fields
  | .Signature s => typeParamsInSignature s
  | .Named (.mk _ underlying _) => typeParamsIn underlying
  | .ConcreteNamed (.mk (.mk _ underlying _) _ typeMap) =>
    typeParamsIn underlying ++ typeParamsInMap typeMap
  | .ConcreteSignature (.mk sig _ typeMap) =>
    typeParamsInSignature sig ++ typeParamsInMap typeMap
termination_by structural root

def typeParamsInSignature (s : Signature) : List TypeParam :=
  match s with
  | .mk recv params results _ _ =>
    typeParamsInRecv recv ++ typeParamsInVars params ++ typeParamsInVars results
termination_by structural s

def typeParamsInRecv (recv : Option Var) : List TypeParam :=
  match recv with
  | none => []
  | some (.mk _ typ) => typeParamsIn typ
termination_by structural recv

def typeParamsInVars (vars : List Var) : List TypeParam :=
  match vars with
  | [] => []
  | .mk _ typ :: rest => typeParamsIn typ ++ typeParamsInVars rest
termination_by structural vars

def typeParamsInMap (typeMap : List (String × Ty)) : List TypeParam :=
  match typeMap with
  | [] => []
  | (_, typ) :: rest => typeParamsIn typ ++ typeParamsInMap rest
termination_by structural typeMap
end

mutual
/-- Every concrete instantiation of a named type that `replaceTypes` meets
in `root` (in an element, key, value, field, receiver, parameter, result or
underlying type) satisfies `P` with its symbol and its substitution map. -/
def instancesSatisfy (P : Object → TypeMap → Prop) (root : Ty) : Prop :=
  match root with
  | .Basic _ => True
  | .TypeParam _ => True
  | .Pointer base => instancesSatisfy P base
  | .Slice elem => instancesSatisfy P elem
  | .Array _ elem => instancesSatisfy P elem
  | .Chan _ elem => instancesSatisfy P elem
  | .Map key elem => instancesSatisfy P key ∧ instancesSatisfy P elem
  | .Tuple _ => True
  | .Struct (.mk fields _) => instancesSatisfyVars P fields
  | .Signature (.mk recv params results _ _) =>
    instancesSatisfyRecv P recv ∧ instancesSatisfyVars P params ∧
      instancesSatisfyVars P results
  | .Named (.mk _ underlying _) => instancesSatisfy P underlying
  | .ConcreteNamed (.mk (.mk obj underlying _) _ typeMap) =>
    P obj typeMap ∧ instancesSatisfy P underlying
  | .ConcreteSignature _ => True
termination_by structural root

def instancesSatisfyRecv (P : Object → TypeMap → Prop) (recv : Option Var) : Prop :=
  match recv with
  | none => True
  | some (.mk _ typ) => instancesSatisfy P typ
termination_by structural recv

def instancesSatisfyVars (P : Object → TypeMap → Prop) (vars : List Var) : Prop :=
  match vars with
  | [] => True
  | .mk _ typ :: rest => instancesSatisfy P typ ∧ instancesSatisfyVars P rest
termination_by structural vars
end

/-- The string form tells `A` apart from the values of `sigma`: each value is
a type parameter, or `A` itself, or has a string form other than that of
`A`. -/
def valuesDistinguished (str : Ty → String) (A : Ty) (sigma : TypeMap) : Prop :=
  ∀ kv ∈ sigma, kv.2.isTypeParam = true ∨ kv.2 = A ∨ str kv.2 ≠ str A

/-- Well-formedness of a concrete instantiation with symbol `o` and map `m`,
relative to the declaration `H` with the single parameter `U` and to a type
argument `A`: `m` is a Go map (distinct keys); the string form tells `A`
apart from the type arguments in `m`; an instantiation of `H` has the
parameter `U` as the domain of its map (section 3 of the specification). -/
def instanceWellFormed (str : Ty → String) (H : String) (U : TypeParam) (A : Ty)
    (o : Object) (m : TypeMap) : Prop :=
  (goKeys m).Nodup ∧ valuesDistinguished str A m ∧ (o.name = H → goKeys m = [U.String])

/-- The registry holds a declaration `N` with the parameter list `ps`. -/
def hasDecl (g : Generics) (N : String) (ps : List TypeParam) : Prop :=
  ∃ d, goLookup g N = some d ∧ d.typeParams = ps

/-- The registry holds a declaration `N` with the parameter list `ps` and,
under `key`, a usage whose map is `m`. -/
def hasUsage (g : Generics) (N : String) (ps : List TypeParam) (key : String) (m : TypeMap) :
    Prop :=
  ∃ d u, goLookup g N = some d ∧ d.typeParams = ps ∧ goLookup d.usages key = some u ∧
    u.typeMap = m

/-- Every comma of the text lies inside brackets and the brackets are
balanced, as in the surface syntax of types (`func(int, string) bool`,
`map[K]V`); `depth` counts the brackets that are open. The braces are the
characters 123 and 125. -/
def commasNested : Nat → List Char → Bool
  | depth, [] => depth == 0
  | depth, c :: cs =>
    if c = '(' ∨ c = '[' ∨ c = Char.ofNat 123 then commasNested (depth + 1) cs
    else if c = ')' ∨ c = ']' ∨ c = Char.ofNat 125 then
      depth != 0 && commasNested (depth - 1) cs
    else if c = ',' then depth != 0 && commasNested depth cs
    else commasNested depth cs

/-- Every occurrence of the character `c` in the text is followed by a
character other than `c`: no two in a row and none at the end. -/
def eachFollowedByOther (c : Char) : List Char → Bool
  | [] => true
  | [a] => a != c
  | a :: b :: rest => (a != c || b != c) && eachFollowedByOther c (b :: rest)

/-- One step of the insertion sort: `x` moves below the elements of
`sorted` (held last first) as long as `less x y`. -/
def insertionStep {α : Type} (less : α → α → Bool) (x : α) : List α → List α
  | [] => [x]
  | y :: ys => if less x y then y :: insertionStep less x ys else x :: y :: ys

/-- Sample sort: the insertion sort that `sort.Slice` of the Go library runs
on a short slice (an element moves down while it is less than the one
before it). -/
def insertionSort {α : Type} (less : α → α → Bool) (l : List α) : List α :=
  (l.foldl (fun sorted x => insertionStep less x sorted) []).reverse

/-- Registry `g1` keeps what registry `g` holds: every declaration name of
`g` is registered in `g1`, and every usage key that its declaration holds in
`g` is held by the declaration of that name in `g1`. -/
def registryExtends (g g1 : Generics) : Prop :=
  ∀ N d, goLookup g N = some d →
    ∃ d1, goLookup g1 N = some d1 ∧
      ∀ k, (goLookup d.usages k).isSome = true → (goLookup d1.usages k).isSome = true

/-- String forms `typeMap[p].String()` of the types bound to the parameters,
in parameter order (parameters without a binding contribute nothing). -/
def stringForms (str : Ty → String) (typeMap : TypeMap) (typeParams : List TypeParam) :
    List String :=
  typeParams.filterMap (fun p => (goLookup typeMap p.String).map str)

/-- Sample: the instantiation `H[T]` written inside a generic `G[T]`, for
`type H[U] struct { v U }`. -/
def sampleInner : ConcreteNamed :=
  .mk (.mk ⟨"H"⟩ (.Struct (.mk [.mk "v" (.TypeParam ⟨"U"⟩)] [])) [])
    [⟨"U"⟩] [("U", .TypeParam ⟨"T"⟩)]

/-- Sample: `H[int]`, the instantiation obtained from `sampleInner` under
`T -> int`. -/
def sampleInnerInt : ConcreteNamed :=
  .mk (.mk ⟨"H"⟩ (.Struct (.mk [.mk "v" (.Basic "int")] [])) [])
    [⟨"U"⟩] [("U", .Basic "int")]

/-- Sample registry: the declaration of `H` with parameter `U`, no usage. -/
def sampleRegistryH : Generics :=
  [("H", { name := "H", typ := .Basic "H", typeParams := [⟨"U"⟩], usages := [] })]

/-- Sample registry: `sampleRegistryH` after the usage `H[int]` is recorded. -/
def sampleRegistryHInt : Generics :=
  [("H", { name := "H", typ := .Basic "H", typeParams := [⟨"U"⟩],
           usages := [("int", { typeMap := [("U", .Basic "int")],
                                typ := .ConcreteNamed sampleInnerInt })] })]

/-- Sample: the instantiation `Tag[[]T]` written inside a generic `G[T]`,
for `type Tag[U] struct { n int }`. -/
def sampleTagOfSlice : ConcreteNamed :=
  .mk (.mk ⟨"Tag"⟩ (.Struct (.mk [.mk "n" (.Basic "int")] [])) [])
    [⟨"U"⟩] [("U", .Slice (.TypeParam ⟨"T"⟩))]

/-- Sample registry: the declaration of `Tag` with parameter `U`. -/
def sampleRegistryTag : Generics :=
  [("Tag", { name := "Tag", typ := .Basic "Tag", typeParams := [⟨"U"⟩], usages := [] })]

/-- Sample: the instantiation `H[[]T]` written inside a generic `G[T]`, for
`type H[U] struct { v U }`, as `concreteType` builds it: the underlying
structure already has `U` replaced by `[]T`. -/
def sampleInnerOfSlice : ConcreteNamed :=
  .mk (.mk ⟨"H"⟩ (.Struct (.mk [.mk "v" (.Slice (.TypeParam ⟨"T"⟩))] [])) [])
    [⟨"U"⟩] [("U", .Slice (.TypeParam ⟨"T"⟩))]

/-- Sample: the signature of `func (b T) f(x T) T`. -/
def sampleMethod : Signature :=
  .mk (some (.mk "b" (.TypeParam ⟨"T"⟩))) [.mk "x" (.TypeParam ⟨"T"⟩)]
    [.mk "" (.TypeParam ⟨"T"⟩)] false [⟨"T"⟩]

/-- Sample registry: `Box` with parameter `T` and the usages `Box[int]` and
`Box[string]`. -/
def sampleRegistryBox : Generics :=
  [("Box", { name := "Box", typ := .Basic "Box", typeParams := [⟨"T"⟩],
             usages := [("int", { typeMap := [("T", .Basic "int")], typ := .Basic "Box" }),
                        ("string", { typeMap := [("T", .Basic "string")],
                                     typ := .Basic "Box" })] })]

/-- Sample registry: `Box` with parameter `T` and usages at the types
`a.b_c` (type `b_c` of package `a`) and `a_b.c` (type `c` of package `a_b`). -/
def sampleRegistryBoxQualified : Generics :=
  [("Box", { name := "Box", typ := .Basic "Box", typeParams := [⟨"T"⟩],
             usages := [("a.b_c", { typeMap := [("T", .Basic "a.b_c")], typ := .Basic "Box" }),
                        ("a_b.c", { typeMap := [("T", .Basic "a_b.c")],
                                    typ := .Basic "Box" })] })]

/-- Sample: the specification `type Box[T] struct { v T }`. -/
def sampleBoxSpec : TypeSpec :=
  { name := "Box", typeParams := some { names := ["T"] },
    type := .Other "StructType" [.Other "Field" [.Ident "v", .Ident "T"]] }

/-- Sample: the declaration `func Box[T](x T)`. -/
def sampleBoxFunc : FuncDecl :=
  { recv := none, name := "Box", typeParams := some { names := ["T"] },
    type := .Other "FuncType" [.Other "Field" [.Ident "x", .Ident "T"]], body := none }

/-- Sample: the declaration record of `Box` in `sampleRegistryBox`. -/
def sampleDeclBox : GenericDecl :=
  { name := "Box", typ := .Basic "Box", typeParams := [⟨"T"⟩],
    usages := [("int", { typeMap := [("T", .Basic "int")], typ := .Basic "Box" }),
               ("string", { typeMap := [("T", .Basic "string")], typ := .Basic "Box" })] }

/-- Sample registry: `G` with parameter `T` and `H` with parameter `U`, no
usage. -/
def sampleRegistryGH : Generics :=
  [("G", { name := "G", typ := .Basic "G", typeParams := [⟨"T"⟩], usages := [] }),
   ("H", { name := "H", typ := .Basic "H", typeParams := [⟨"U"⟩], usages := [] })]

/-- Sample: `G[int]` for `type G[T] struct { n int; h H[T]; p *T }`. -/
def sampleOuterInt : Ty :=
  .ConcreteNamed (.mk (.mk ⟨"G"⟩ (.Struct (.mk
    [.mk "n" (.Basic "int"), .mk "h" (.ConcreteNamed sampleInnerInt),
     .mk "p" (.Pointer (.Basic "int"))] [])) []) [⟨"T"⟩] [("T", .Basic "int")])

/-- Sample registry: `sampleRegistryGH` after the instantiation `G[int]`. -/
def sampleRegistryGHInt : Generics :=
  [("G", { name := "G", typ := .Basic "G", typeParams := [⟨"T"⟩],
           usages := [("int", { typeMap := [("T", .Basic "int")], typ := sampleOuterInt })] }),
   ("H", { name := "H", typ := .Basic "H", typeParams := [⟨"U"⟩],
           usages := [("int", { typeMap := [("U", .Basic "int")],
                                typ := .ConcreteNamed sampleInnerInt })] })]

/-- Sample: the registry after `addGenericDecl` of `Tag` with parameter `U`
on the empty registry. -/
def sampleRegistryTagDeclared : Generics :=
  addGenericDecl ⟨"Tag"⟩ (.Basic "Tag") [⟨"U"⟩] []

/-- Sample: the signature of the method `func (b Box) Len() int`, without
type parameter. -/
def sampleMethodPlain : Signature :=
  .mk (some (.mk "b" (.Basic "Box"))) [] [.mk "" (.Basic "int")] false []

/-- Sample: the generic named type of `type Box[T] struct { v T }`. -/
def sampleBoxNamed : Named :=
  .mk ⟨"Box"⟩ (.Struct (.mk [.mk "v" (.TypeParam ⟨"T"⟩)] [])) [⟨"T"⟩]

/-- Sample checker: `Box` declared, no usage, no error. -/
def sampleChecker : Checker :=
  { generics := [("Box", { name := "Box", typ := .Named sampleBoxNamed,
                           typeParams := [⟨"T"⟩], usages := [] })],
    errors := [] }

/-- Sample: a type-argument evaluator for the identifiers `int` and
`string`. -/
def sampleRawExpr : RawExpr := fun n check =>
  match n with
  | .Ident name => .ok (some (.Basic name), check)
  | _ => .ok (none, check)

/-- Sample: the group `type ( B int; A int )`. -/
def sampleGroup : GenDecl :=
  { tok := "type",
    specs := [.TypeSpec { name := "B", typeParams := none, type := .Ident "int" },
              .TypeSpec { name := "A", typeParams := none, type := .Ident "int" }] }

/-- Sample: a printer for identifiers and selector expressions. -/
def samplePrintNode : Node → String
  | .Ident name => name
  | .Other "SelectorExpr" [.Ident x, .Ident sel] => x ++ "." ++ sel
  | _ => "?"

/-- Sample: the named type `X` of the package level, with underlying type
`int`. -/
def sampleShadowed : Ty := .Named (.mk ⟨"X"⟩ (.Basic "int") [])

/-- Sample: another named type `X`, declared in an inner scope, with
underlying type `string`; `typeString` prints it like `sampleShadowed`. -/
def sampleShadowing : Ty := .Named (.mk ⟨"X"⟩ (.Basic "string") [])

/-- Sample: the instantiation of `H` with the inner `X`, for
`type H[U] struct { v U }`. -/
def sampleInnerShadowing : ConcreteNamed :=
  .mk (.mk ⟨"H"⟩ (.Struct (.mk [.mk "v" sampleShadowing] [])) [])
    [⟨"U"⟩] [("U", sampleShadowing)]

/-- Sample: the generic named type of `type G[T] struct { h H[T]; k H[X] }`,
where `X` is the inner type. -/
def sampleOuterShadow : Named :=
  .mk ⟨"G"⟩ (.Struct (.mk [.mk "h" (.ConcreteNamed sampleInner),
    .mk "k" (.ConcreteNamed sampleInnerShadowing)] [])) [⟨"T"⟩]

/-- Sample: `G` of `sampleOuterShadow` instantiated with the outer `X`. -/
def sampleOuterShadowed : Ty :=
  .ConcreteNamed (.mk (.mk ⟨"G"⟩ (.Struct (.mk
    [.mk "h" (.ConcreteNamed (.mk (.mk ⟨"H"⟩ (.Struct (.mk [.mk "v" sampleShadowed] [])) [])
       [⟨"U"⟩] [("U", sampleShadowed)])),
     .mk "k" (.ConcreteNamed sampleInnerShadowing)] [])) []) [⟨"T"⟩] [("T", sampleShadowed)])

/-- Sample registry: `sampleRegistryGH` after that instantiation. -/
def sampleRegistryShadow : Generics :=
  [("G", { name := "G", typ := .Basic "G", typeParams := [⟨"T"⟩],
           usages := [("X", { typeMap := [("T", sampleShadowed)],
                              typ := sampleOuterShadowed })] }),
   ("H", { name := "H", typ := .Basic "H", typeParams := [⟨"U"⟩],
           usages := [("X", { typeMap := [("U", sampleShadowing)],
                              typ := .ConcreteNamed sampleInnerShadowing })] })]

/-! ## Lemmas on Go maps -/

theorem goLookup_mem {α : Type} (m : List (String × α)) (k : String) (v : α)
    (h : goLookup m k = some v) : (k, v) ∈ m := by
  induction m with
  | nil => simp [goLookup] at h
  | cons kv m ih =>
    obtain ⟨k0, v0⟩ := kv
    by_cases hk : k0 = k
    · simp only [goLookup, hk, if_true, Option.some.injEq] at h
      simp [hk, h]
    · simp only [goLookup, hk, if_false] at h
      exact List.mem_cons_of_mem _ (ih h)

theorem goLookup_isSome_iff {α : Type} (m : List (String × α)) (k : String) :
    (goLookup m k).isSome = true ↔ k ∈ goKeys m := by
  induction m with
  | nil => simp [goLookup, goKeys]
  | cons kv m ih =>
    obtain ⟨k0, v0⟩ := kv
    by_cases hk : k0 = k
    · simp [goLookup, goKeys, hk]
    · have hk1 : ¬ k = k0 := fun h => hk h.symm
      simp only [goLookup, hk, if_false, ih, goKeys, List.map_cons, List.mem_cons, hk1,
        false_or]

theorem goLookup_eq_none_iff {α : Type} (m : List (String × α)) (k : String) :
    goLookup m k = none ↔ k ∉ goKeys m := by
  rw [← goLookup_isSome_iff]
  cases goLookup m k <;> simp

theorem goInsert_of_not_mem {α : Type} (m : List (String × α)) (k : String) (v : α)
    (h : k ∉ goKeys m) : goInsert m k v = m ++ [(k, v)] := by
  induction m with
  | nil => rfl
  | cons kv m ih =>
    obtain ⟨k0, v0⟩ := kv
    simp only [goKeys, List.map_cons, List.mem_cons, not_or] at h
    have hk : ¬ k0 = k := fun e => h.1 e.symm
    simp only [goInsert, hk, if_false, List.cons_append]
    rw [ih h.2]

theorem goLookup_goInsert_same {α : Type} (m : List (String × α)) (k : String) (v : α) :
    goLookup (goInsert m k v) k = some v := by
  induction m with
  | nil => simp [goInsert, goLookup]
  | cons kv m ih =>
    obtain ⟨k0, v0⟩ := kv
    by_cases hk : k0 = k
    · simp [goInsert, goLookup, hk]
    · simp [goInsert, goLookup, hk, ih]

theorem goLookup_goInsert_other {α : Type} (m : List (String × α)) (k k1 : String) (v : α)
    (h : k ≠ k1) : goLookup (goInsert m k v) k1 = goLookup m k1 := by
  induction m with
  | nil => simp [goInsert, goLookup, h]
  | cons kv m ih =>
    obtain ⟨k0, v0⟩ := kv
    by_cases hk : k0 = k
    · subst hk
      simp [goInsert, goLookup, h]
    · by_cases hk1 : k0 = k1
      · subst hk1
        simp only [goInsert, hk, if_false, goLookup, if_true]
      · simp only [goInsert, hk, if_false, goLookup, hk1, ih]

theorem goLookup_map_value {α β : Type} (f : α → β) (m : List (String × α)) (k : String) :
    goLookup (m.map (fun kv => (kv.1, f kv.2))) k = (goLookup m k).map f := by
  induction m with
  | nil => rfl
  | cons kv m ih =>
    obtain ⟨k0, v0⟩ := kv
    by_cases hk : k0 = k
    · simp [goLookup, hk]
    · simp [goLookup, hk, ih]

/-! ## The loop of `replaceTypesInConcreteNamed` -/

theorem newTypeMapLoop_step (sigma : TypeMap) (key : String) (given : Ty) (rest acc : TypeMap) :
    newTypeMapLoop sigma ((key, given) :: rest) acc =
      newTypeMapLoop sigma rest (goInsert acc key (inheritedValue sigma given)) := by
  cases given with
  | TypeParam q =>
    simp only [newTypeMapLoop, inheritedValue]
    cases hq : goLookup sigma q.String with
    | none => rfl
    | some t => cases ht : t.isTypeParam <;> simp [ht]
  | _ => rfl

theorem newTypeMapLoop_eq (sigma : TypeMap) (m acc : TypeMap)
    (hm : (goKeys m).Nodup) (hacc : ∀ k ∈ goKeys m, k ∉ goKeys acc) :
    newTypeMapLoop sigma m acc = acc ++ m.map (fun kv => (kv.1, inheritedValue sigma kv.2)) := by
  induction m generalizing acc with
  | nil => simp [newTypeMapLoop]
  | cons kv m ih =>
    obtain ⟨k0, v0⟩ := kv
    simp only [goKeys, List.map_cons, List.nodup_cons] at hm
    rw [newTypeMapLoop_step, goInsert_of_not_mem _ _ _ (hacc k0 (by simp [goKeys]))]
    rw [ih _ hm.2]
    · simp
    · intro k hk
      have h1 := hacc k (by simp only [goKeys, List.map_cons, List.mem_cons]; exact Or.inr hk)
      simp only [goKeys, List.map_append, List.map_cons, List.map_nil, List.mem_append,
        List.mem_singleton, not_or]
      refine ⟨h1, ?_⟩
      rintro rfl
      exact hm.1 hk

theorem newTypeMapLoop_nil_eq (sigma : TypeMap) (m : TypeMap) (hm : (goKeys m).Nodup) :
    newTypeMapLoop sigma m [] = m.map (fun kv => (kv.1, inheritedValue sigma kv.2)) := by
  rw [newTypeMapLoop_eq sigma m [] hm (by simp [goKeys])]
  rfl

/-! ## Substitution on a type parameter -/

/-- C1: on a type parameter `p`, `replaceTypes` returns `p` itself when
`sigma` binds `p` to a type parameter, returns `sigma[p]` when `sigma` binds
`p` to a non-parameter type, and fails with the undefined-type-parameter
error when `sigma` has no entry for `p`; the registry is untouched. -/
theorem replaceTypes_typeParam (str : Ty → String) (p : TypeParam) (sigma : TypeMap)
    (g : Generics) :
    (∀ q, goLookup sigma p.String = some (.TypeParam q) →
      replaceTypes str (.TypeParam p) sigma g = .ok (.TypeParam p, g)) ∧
    (∀ t, goLookup sigma p.String = some t → t.isTypeParam = false →
      replaceTypes str (.TypeParam p) sigma g = .ok (t, g)) ∧
    (goLookup sigma p.String = none →
      replaceTypes str (.TypeParam p) sigma g =
        .error (.undefinedTypeParameter p.String)) := by
  refine ⟨?_, ?_, ?_⟩
  · intro q hq
    simp [replaceTypes, hq, Ty.isTypeParam]
  · intro t ht hnp
    simp [replaceTypes, ht, hnp]
  · intro hnone
    simp [replaceTypes, hnone]

theorem replaceTypes_typeParam_witness :
    replaceTypes typeString (.TypeParam ⟨"T"⟩) [("T", .TypeParam ⟨"V"⟩)] sampleRegistryH =
        .ok (.TypeParam ⟨"T"⟩, sampleRegistryH) ∧
      replaceTypes typeString (.TypeParam ⟨"T"⟩) [("T", .Basic "int")] sampleRegistryH =
        .ok (.Basic "int", sampleRegistryH) ∧
      replaceTypes typeString (.TypeParam ⟨"T"⟩) [("S", .Basic "int")] sampleRegistryH =
        .error (.undefinedTypeParameter "T") :=
  ⟨(replaceTypes_typeParam typeString ⟨"T"⟩ [("T", .TypeParam ⟨"V"⟩)] sampleRegistryH).1
      ⟨"V"⟩ rfl,
    (replaceTypes_typeParam typeString ⟨"T"⟩ [("T", .Basic "int")] sampleRegistryH).2.1
      (.Basic "int") rfl rfl,
    (replaceTypes_typeParam typeString ⟨"T"⟩ [("S", .Basic "int")] sampleRegistryH).2.2 rfl⟩

/-! ## Substitution on a concrete instantiation of a named type -/

/-- C2: when `replaceTypes` returns on a concrete instantiation carrying the
parameter list `tps` and the map `m` (a Go map: distinct keys), the result
is a concrete instantiation carrying `tps` and a map `m1` with exactly the
keys of `m`; `m1[k]` is `sigma[q]` when `m[k]` is a type parameter `q` that
`sigma` binds to a non-parameter type, and `m[k]` otherwise. -/
theorem replaceTypes_concreteNamed (str : Ty → String) (named : Named)
    (tps : List TypeParam) (m sigma : TypeMap) (g : Generics) (R : Ty) (g1 : Generics)
    (hm : (goKeys m).Nodup)
    (h : replaceTypes str (.ConcreteNamed (.mk named tps m)) sigma g = .ok (R, g1)) :
    ∃ named1 m1, R = .ConcreteNamed (.mk named1 tps m1) ∧
      (∀ k, k ∈ goKeys m1 ↔ k ∈ goKeys m) ∧
      (∀ k q t, goLookup m k = some (.TypeParam q) → goLookup sigma q.String = some t →
        t.isTypeParam = false → goLookup m1 k = some t) ∧
      (∀ k v, goLookup m k = some v →
        (∀ q t, v = .TypeParam q → goLookup sigma q.String = some t → t.isTypeParam = true) →
        goLookup m1 k = some v) := by
  simp only [replaceTypes, replaceTypesInConcreteNamed] at h
  split at h
  · cases h
  · rename_i c1 g2 hc
    split at hc
    · cases hc
    · rename_i newNamed g3 hn
      split at hc
      · cases hc
      · rename_i g4 hu
        cases hc
        cases h
        refine ⟨_, _, rfl, ?_, ?_, ?_⟩
        · intro k
          rw [newTypeMapLoop_nil_eq sigma m hm]
          simp [goKeys]
        · intro k q t hk hq ht
          rw [newTypeMapLoop_nil_eq sigma m hm, goLookup_map_value, hk]
          simp [inheritedValue, hq, ht]
        · intro k v hk hv
          rw [newTypeMapLoop_nil_eq sigma m hm, goLookup_map_value, hk]
          cases v with
          | TypeParam q =>
            simp only [Option.map_some', inheritedValue]
            cases hq : goLookup sigma q.String with
            | none => rfl
            | some t => simp [hv q t rfl hq]
          | _ => rfl

theorem replaceTypes_concreteNamed_witness :
    ∃ named1 m1, Ty.ConcreteNamed sampleInnerInt = .ConcreteNamed (.mk named1 [⟨"U"⟩] m1) ∧
      (∀ k, k ∈ goKeys m1 ↔ k ∈ goKeys [("U", Ty.TypeParam ⟨"T"⟩)]) ∧
      (∀ k q t, goLookup [("U", Ty.TypeParam ⟨"T"⟩)] k = some (.TypeParam q) →
        goLookup [("T", Ty.Basic "int")] q.String = some t →
        t.isTypeParam = false → goLookup m1 k = some t) ∧
      (∀ k v, goLookup [("U", Ty.TypeParam ⟨"T"⟩)] k = some v →
        (∀ q t, v = .TypeParam q → goLookup [("T", Ty.Basic "int")] q.String = some t →
          t.isTypeParam = true) →
        goLookup m1 k = some v) :=
  replaceTypes_concreteNamed typeString
    (.mk ⟨"H"⟩ (.Struct (.mk [.mk "v" (.TypeParam ⟨"U"⟩)] [])) []) [⟨"U"⟩]
    [("U", .TypeParam ⟨"T"⟩)] [("T", .Basic "int")] sampleRegistryH
    (.ConcreteNamed sampleInnerInt) sampleRegistryHInt (by decide) (by rfl)

/-! ## Registering a non-ground usage -/

/-- C10: when some value of `sigma` is a type parameter, `addGenericUsage`
returns without failing, whether or not a declaration is registered for the
symbol, and the registry is unchanged. -/
theorem addGenericUsage_typeParam_noop (str : Ty → String) (genObj : Object) (typ : Ty)
    (sigma : TypeMap) (g : Generics)
    (h : ∃ k p, goLookup sigma k = some (.TypeParam p)) :
    addGenericUsage str genObj typ sigma g = .ok g := by
  obtain ⟨k, p, hk⟩ := h
  have hmem := goLookup_mem sigma k _ hk
  have hany : sigma.any (fun kv => kv.2.isTypeParam) = true :=
    List.any_eq_true.mpr ⟨_, hmem, rfl⟩
  simp [addGenericUsage, hany]

theorem addGenericUsage_typeParam_noop_witness :
    addGenericUsage typeString ⟨"Missing"⟩ (.Basic "x")
        [("A", .Basic "int"), ("B", .TypeParam ⟨"T"⟩)] sampleRegistryHInt =
      .ok sampleRegistryHInt :=
  addGenericUsage_typeParam_noop typeString ⟨"Missing"⟩ (.Basic "x")
    [("A", .Basic "int"), ("B", .TypeParam ⟨"T"⟩)] sampleRegistryHInt ⟨"B", ⟨"T"⟩, rfl⟩

/-! ## Substitution below a concrete instantiation -/

/-- C4: evaluation at `Tag[[]T]` under the ground map `T -> int`, which binds
the only type parameter of the input: `replaceTypes` returns the input as
it is, so the result still carries `T` in its substitution map, and the
usage recorded for `Tag` is keyed by the string form of `[]T`. -/
theorem replaceTypes_keeps_param_in_map_value :
    (∀ kv ∈ [("T", Ty.Basic "int")], typeParamsIn kv.2 = []) ∧
      (∀ p ∈ typeParamsIn (.ConcreteNamed sampleTagOfSlice),
        (goLookup [("T", Ty.Basic "int")] p.String).isSome = true) ∧
      replaceTypes typeString (.ConcreteNamed sampleTagOfSlice) [("T", .Basic "int")]
          sampleRegistryTag =
        .ok (.ConcreteNamed sampleTagOfSlice,
          [("Tag", { name := "Tag", typ := .Basic "Tag", typeParams := [⟨"U"⟩],
                     usages := [("[]T", { typeMap := [("U", .Slice (.TypeParam ⟨"T"⟩))],
                                          typ := .ConcreteNamed sampleTagOfSlice })] })]) ∧
      typeParamsIn (.ConcreteNamed sampleTagOfSlice) = [⟨"T"⟩] :=
  ⟨by decide, by decide, rfl, by decide⟩

/-- C5: evaluation at `H[[]T]` under the map `T -> int`, which binds the only
type parameter of the input, with `H` declared in the registry:
`replaceTypes` fails with the undefined-type-parameter error for `T`. -/
theorem replaceTypes_fails_below_concreteNamed :
    (∀ p ∈ typeParamsIn (.ConcreteNamed sampleInnerOfSlice),
        (goLookup [("T", Ty.Basic "int")] p.String).isSome = true) ∧
      (goLookup sampleRegistryH "H").isSome = true ∧
      replaceTypes typeString (.ConcreteNamed sampleInnerOfSlice) [("T", .Basic "int")]
          sampleRegistryH =
        .error (.undefinedTypeParameter "T") :=
  ⟨by decide, by decide, rfl⟩

/-! ## Substitution on a signature -/

/-- C6: evaluation at the signature of `func (b T) f(x T) T` under
`T -> int`: parameters and results are substituted, the variadic flag and
the type-parameter list are kept, and the result has no receiver. -/
theorem replaceTypesInSignature_drops_receiver :
    sampleMethod.recv = some (.mk "b" (.TypeParam ⟨"T"⟩)) ∧
      replaceTypesInSignature typeString sampleMethod [("T", .Basic "int")] [] =
        .ok (.mk none [.mk "x" (.Basic "int")] [.mk "" (.Basic "int")] false [⟨"T"⟩], []) :=
  ⟨rfl, rfl⟩

/-! ## Strings -/

theorem intercalate_go_append (x y sep : String) (l : List String) :
    String.intercalate.go (x ++ y) sep l = x ++ String.intercalate.go y sep l := by
  induction l generalizing y with
  | nil => rfl
  | cons a l ih =>
    simp only [String.intercalate.go]
    rw [String.append_assoc, String.append_assoc, ← String.append_assoc y, ih]

theorem intercalate_cons_cons (sep a b : String) (l : List String) :
    sep.intercalate (a :: b :: l) = a ++ sep ++ sep.intercalate (b :: l) := by
  simp only [String.intercalate, String.intercalate.go]
  rw [String.append_assoc, intercalate_go_append, intercalate_go_append, String.append_assoc]

theorem intercalate_singleton (sep a : String) : sep.intercalate [a] = a := rfl

theorem not_mem_intercalate (c : Char) (sep : String) (hsep : c ∉ sep.data) (l : List String)
    (hl : ∀ s ∈ l, c ∉ s.data) : c ∉ (sep.intercalate l).data := by
  induction l with
  | nil => simp [String.intercalate]
  | cons a l ih =>
    cases l with
    | nil => exact hl a (by simp)
    | cons b l =>
      rw [intercalate_cons_cons]
      simp only [String.data_append, List.mem_append, not_or]
      exact ⟨⟨hl a (by simp), hsep⟩, ih (fun s hs => hl s (List.mem_cons_of_mem _ hs))⟩

theorem period_not_mem_replacePeriods (s : String) : '.' ∉ (replacePeriods s).data := by
  simp only [replacePeriods, List.mem_map, not_exists, not_and]
  intro c _
  by_cases hc : c = '.'
  · simp [hc]
  · simp [hc]

theorem replacePeriods_of_not_mem (s : String) (h : '.' ∉ s.data) : replacePeriods s = s := by
  have : s.data.map (fun c => if c = '.' then '_' else c) = s.data := by
    conv_rhs => rw [← List.map_id s.data]
    apply List.map_congr_left
    intro c hc
    have : c ≠ '.' := fun e => h (e ▸ hc)
    simp [this]
  simp only [replacePeriods, this]

/-- Two texts that agree after a prefix without underscore followed by an
underscore have the same prefix and the same remainder. -/
theorem underscore_split (x y s t : List Char) (hx : '_' ∉ x) (hy : '_' ∉ y)
    (h : x ++ '_' :: s = y ++ '_' :: t) : x = y ∧ s = t := by
  induction x generalizing y with
  | nil =>
    cases y with
    | nil => simpa using h
    | cons c y =>
      simp only [List.nil_append, List.cons_append, List.cons.injEq] at h
      exact absurd (by simp [← h.1]) hy
  | cons c x ih =>
    cases y with
    | nil =>
      simp only [List.nil_append, List.cons_append, List.cons.injEq] at h
      exact absurd (by simp [h.1]) hx
    | cons d y =>
      simp only [List.cons_append, List.cons.injEq] at h
      simp only [List.mem_cons, not_or] at hx hy
      obtain ⟨h1, h2⟩ := ih y hx.2 hy.2 h.2
      exact ⟨by rw [h.1, h1], h2⟩

theorem intercalate_underscores_injective (l1 l2 : List String) (hlen : l1.length = l2.length)
    (h1 : ∀ s ∈ l1, '_' ∉ s.data) (h2 : ∀ s ∈ l2, '_' ∉ s.data)
    (h : "__".intercalate l1 = "__".intercalate l2) : l1 = l2 := by
  induction l1 generalizing l2 with
  | nil =>
    cases l2 with
    | nil => rfl
    | cons b l2 => simp at hlen
  | cons a l1 ih =>
    cases l2 with
    | nil => simp at hlen
    | cons b l2 =>
      cases l1 with
      | nil =>
        cases l2 with
        | nil =>
          simp only [intercalate_singleton] at h
          rw [h]
        | cons b2 l2 => simp at hlen
      | cons a2 l1 =>
        cases l2 with
        | nil => simp at hlen
        | cons b2 l2 =>
          rw [intercalate_cons_cons, intercalate_cons_cons] at h
          have hd := congrArg String.data h
          simp only [String.data_append] at hd
          simp only [List.append_assoc, List.cons_append, List.nil_append] at hd
          obtain ⟨e1, e2⟩ := underscore_split _ _ _ _ (h1 a (by simp)) (h2 b (by simp)) hd
          simp only [List.cons.injEq, true_and] at e2
          have hab : a = b := String.ext e1
          have hrest : "__".intercalate (a2 :: l1) = "__".intercalate (b2 :: l2) := String.ext e2
          have := ih (b2 :: l2) (by simpa using hlen)
            (fun s hs => h1 s (List.mem_cons_of_mem _ hs))
            (fun s hs => h2 s (List.mem_cons_of_mem _ hs)) hrest
          rw [hab, this]

/-! ## Name mangling -/

theorem stringForms_cons_of_bound (str : Ty → String) (m : TypeMap) (p : TypeParam)
    (ps : List TypeParam) (t : Ty) (h : goLookup m p.String = some t) :
    stringForms str m (p :: ps) = str t :: stringForms str m ps := by
  simp [stringForms, List.filterMap_cons, h]

theorem stringForms_length (str : Ty → String) (m : TypeMap) (ps : List TypeParam)
    (hb : ∀ p ∈ ps, (goLookup m p.String).isSome = true) :
    (stringForms str m ps).length = ps.length := by
  induction ps with
  | nil => rfl
  | cons p ps ih =>
    obtain ⟨t, ht⟩ := Option.isSome_iff_exists.mp (hb p (by simp))
    rw [stringForms_cons_of_bound str m p ps t ht]
    simp [ih (fun q hq => hb q (List.mem_cons_of_mem _ hq))]

theorem safeParams_of_bound (str : Ty → String) (m : TypeMap) (ps : List TypeParam)
    (hb : ∀ p ∈ ps, (goLookup m p.String).isSome = true) :
    safeParams str m ps = .ok ((stringForms str m ps).map replacePeriods) := by
  induction ps with
  | nil => rfl
  | cons p ps ih =>
    obtain ⟨t, ht⟩ := Option.isSome_iff_exists.mp (hb p (by simp))
    rw [stringForms_cons_of_bound str m p ps t ht]
    simp only [safeParams, ht, ih (fun q hq => hb q (List.mem_cons_of_mem _ hq)), List.map_cons]

theorem concreteTypeName_of_bound (str : Ty → String) (d : GenericDecl) (u : GenericUsage)
    (hb : ∀ p ∈ d.typeParams, (goLookup u.typeMap p.String).isSome = true) :
    concreteTypeName str d u =
      .ok (d.name ++ "__" ++
        "__".intercalate ((stringForms str u.typeMap d.typeParams).map replacePeriods)) := by
  simp only [concreteTypeName, safeParams_of_bound str u.typeMap d.typeParams hb]

/-- C7: for a usage that binds every parameter of the declaration,
`concreteTypeName` is the declaration name, then `__`, then the string forms
of the bound types in parameter order, each with its periods replaced by
underscores, joined with `__`; the result is determined by the name and the
ordered string forms, and it contains no period when the name has none. -/
theorem concreteTypeName_spec (str : Ty → String) (d : GenericDecl) (u : GenericUsage)
    (hb : ∀ p ∈ d.typeParams, (goLookup u.typeMap p.String).isSome = true) :
    concreteTypeName str d u =
        .ok (d.name ++ "__" ++
          "__".intercalate ((stringForms str u.typeMap d.typeParams).map replacePeriods)) ∧
      (∀ (d1 : GenericDecl) (u1 : GenericUsage),
        (∀ p ∈ d1.typeParams, (goLookup u1.typeMap p.String).isSome = true) →
        d1.name = d.name →
        stringForms str u1.typeMap d1.typeParams = stringForms str u.typeMap d.typeParams →
        concreteTypeName str d1 u1 = concreteTypeName str d u) ∧
      ('.' ∉ d.name.data → ∀ n, concreteTypeName str d u = .ok n → '.' ∉ n.data) := by
  refine ⟨concreteTypeName_of_bound str d u hb, ?_, ?_⟩
  · intro d1 u1 hb1 hname hforms
    rw [concreteTypeName_of_bound str d u hb, concreteTypeName_of_bound str d1 u1 hb1, hname,
      hforms]
  · intro hN n hn
    rw [concreteTypeName_of_bound str d u hb] at hn
    cases hn
    simp only [String.data_append, List.mem_append, not_or]
    refine ⟨⟨hN, by decide⟩, ?_⟩
    apply not_mem_intercalate _ _ (by decide)
    intro s hs
    obtain ⟨s0, _, rfl⟩ := List.mem_map.mp hs
    exact period_not_mem_replacePeriods s0

theorem concreteTypeName_spec_witness :
    concreteTypeName typeString
        { name := "Box", typ := .Basic "Box", typeParams := [⟨"T"⟩], usages := [] }
        { typeMap := [("T", .Basic "pkg.User")], typ := .Basic "Box" } =
      .ok "Box__pkg_User" :=
  (concreteTypeName_spec typeString
    { name := "Box", typ := .Basic "Box", typeParams := [⟨"T"⟩], usages := [] }
    { typeMap := [("T", .Basic "pkg.User")], typ := .Basic "Box" } (by decide)).1

theorem eachFollowedByOther_tail (c a : Char) (l : List Char)
    (h : eachFollowedByOther c (a :: l) = true) : eachFollowedByOther c l = true := by
  cases l with
  | nil => rfl
  | cons b rest =>
    simp only [eachFollowedByOther, Bool.and_eq_true] at h
    exact h.2

theorem eachFollowedByOther_head (c : Char) (l : List Char)
    (h : eachFollowedByOther c (c :: l) = true) : ∃ b rest, l = b :: rest ∧ b ≠ c := by
  cases l with
  | nil => simp [eachFollowedByOther] at h
  | cons b rest =>
    simp only [eachFollowedByOther, Bool.and_eq_true, Bool.or_eq_true, bne_iff_ne, ne_eq,
      not_true_eq_false, false_or] at h
    exact ⟨b, rest, rfl, h.1⟩

/-- Two texts that agree after a prefix followed by two underscores, where in
both prefixes every underscore is followed by another character, have the
same prefix and the same remainder. -/
theorem double_underscore_split (x : List Char) :
    ∀ (y s t : List Char), eachFollowedByOther '_' x = true →
      eachFollowedByOther '_' y = true →
      x ++ '_' :: '_' :: s = y ++ '_' :: '_' :: t → x = y ∧ s = t := by
  induction x with
  | nil =>
    intro y s t _ hy h
    cases y with
    | nil => simpa using h
    | cons d y =>
      simp only [List.nil_append, List.cons_append, List.cons.injEq] at h
      obtain ⟨hd, hrest⟩ := h
      subst hd
      obtain ⟨b, rest, hb, hne⟩ := eachFollowedByOther_head '_' y hy
      subst hb
      simp only [List.cons_append, List.cons.injEq] at hrest
      exact absurd hrest.1.symm hne
  | cons c x ih =>
    intro y s t hx hy h
    cases y with
    | nil =>
      simp only [List.nil_append, List.cons_append, List.cons.injEq] at h
      obtain ⟨hc, hrest⟩ := h
      subst hc
      obtain ⟨b, rest, hb, hne⟩ := eachFollowedByOther_head '_' x hx
      subst hb
      simp only [List.cons_append, List.cons.injEq] at hrest
      exact absurd hrest.1 hne
    | cons d y =>
      simp only [List.cons_append, List.cons.injEq] at h
      obtain ⟨hcd, hrest⟩ := h
      subst hcd
      obtain ⟨e1, e2⟩ := ih y s t (eachFollowedByOther_tail '_' c x hx)
        (eachFollowedByOther_tail '_' c y hy) hrest
      exact ⟨by rw [e1], e2⟩

theorem intercalate_separated_injective (l1 l2 : List String) (hlen : l1.length = l2.length)
    (h1 : ∀ s ∈ l1, eachFollowedByOther '_' s.data = true)
    (h2 : ∀ s ∈ l2, eachFollowedByOther '_' s.data = true)
    (h : "__".intercalate l1 = "__".intercalate l2) : l1 = l2 := by
  induction l1 generalizing l2 with
  | nil =>
    cases l2 with
    | nil => rfl
    | cons b l2 => simp at hlen
  | cons a l1 ih =>
    cases l2 with
    | nil => simp at hlen
    | cons b l2 =>
      cases l1 with
      | nil =>
        cases l2 with
        | nil =>
          simp only [intercalate_singleton] at h
          rw [h]
        | cons b2 l2 => simp at hlen
      | cons a2 l1 =>
        cases l2 with
        | nil => simp at hlen
        | cons b2 l2 =>
          rw [intercalate_cons_cons, intercalate_cons_cons] at h
          have hd := congrArg String.data h
          simp only [String.data_append] at hd
          simp only [List.append_assoc, List.cons_append, List.nil_append] at hd
          obtain ⟨e1, e2⟩ := double_underscore_split _ _ _ _ (h1 a (by simp))
            (h2 b (by simp)) hd
          have hab : a = b := String.ext e1
          have hrest : "__".intercalate (a2 :: l1) = "__".intercalate (b2 :: l2) := String.ext e2
          have := ih (b2 :: l2) (by simpa using hlen)
            (fun s hs => h1 s (List.mem_cons_of_mem _ hs))
            (fun s hs => h2 s (List.mem_cons_of_mem _ hs)) hrest
          rw [hab, this]

theorem eachFollowedByOther_replacePeriods (l : List Char) (hu : '_' ∉ l)
    (hp : eachFollowedByOther '.' l = true) :
    eachFollowedByOther '_' (l.map (fun c => if c = '.' then '_' else c)) = true := by
  induction l with
  | nil => rfl
  | cons a l ih =>
    simp only [List.mem_cons, not_or] at hu
    have iht := ih hu.2 (eachFollowedByOther_tail '.' a l hp)
    cases l with
    | nil =>
      simp only [eachFollowedByOther, bne_iff_ne, ne_eq] at hp
      simp only [List.map, eachFollowedByOther, if_neg hp, bne_iff_ne, ne_eq]
      exact fun e => hu.1 e.symm
    | cons b rest =>
      simp only [List.mem_cons, not_or] at hu
      simp only [eachFollowedByOther, Bool.and_eq_true, Bool.or_eq_true, bne_iff_ne,
        ne_eq] at hp
      simp only [List.map_cons] at iht
      simp only [List.map_cons, eachFollowedByOther, Bool.and_eq_true, Bool.or_eq_true,
        bne_iff_ne, ne_eq]
      refine ⟨?_, iht⟩
      rcases hp.1 with ha | hb
      · left
        rw [if_neg ha]
        exact fun e => hu.1 e.symm
      · right
        rw [if_neg hb]
        exact fun e => hu.2.1 e.symm

theorem replacePeriods_injective (s1 s2 : String) (h1 : '_' ∉ s1.data) (h2 : '_' ∉ s2.data)
    (h : replacePeriods s1 = replacePeriods s2) : s1 = s2 := by
  have key : ∀ (l1 l2 : List Char), '_' ∉ l1 → '_' ∉ l2 →
      l1.map (fun c => if c = '.' then '_' else c) =
        l2.map (fun c => if c = '.' then '_' else c) → l1 = l2 := by
    intro l1
    induction l1 with
    | nil =>
      intro l2 _ _ h
      cases l2 with
      | nil => rfl
      | cons b l2 => simp at h
    | cons a l1 ih =>
      intro l2 ha hb h
      cases l2 with
      | nil => simp at h
      | cons b l2 =>
        simp only [List.mem_cons, not_or] at ha hb
        simp only [List.map_cons, List.cons.injEq] at h
        have hab : a = b := by
          by_cases ea : a = '.'
          · by_cases eb : b = '.'
            · rw [ea, eb]
            · rw [if_pos ea, if_neg eb] at h
              exact absurd h.1 hb.1
          · by_cases eb : b = '.'
            · rw [if_neg ea, if_pos eb] at h
              exact absurd h.1.symm ha.1
            · rw [if_neg ea, if_neg eb] at h
              exact h.1
        rw [hab, ih l2 ha.2 hb.2 h.2]
  apply String.ext
  apply key _ _ h1 h2
  have := congrArg String.data h
  simpa [replacePeriods] using this

theorem map_replacePeriods_injective (l1 l2 : List String)
    (h1 : ∀ s ∈ l1, '_' ∉ s.data) (h2 : ∀ s ∈ l2, '_' ∉ s.data)
    (h : l1.map replacePeriods = l2.map replacePeriods) : l1 = l2 := by
  induction l1 generalizing l2 with
  | nil =>
    cases l2 with
    | nil => rfl
    | cons b l2 => simp at h
  | cons a l1 ih =>
    cases l2 with
    | nil => simp at h
    | cons b l2 =>
      simp only [List.map_cons, List.cons.injEq] at h
      rw [replacePeriods_injective a b (h1 a (by simp)) (h2 b (by simp)) h.1,
        ih l2 (fun s hs => h1 s (List.mem_cons_of_mem _ hs))
          (fun s hs => h2 s (List.mem_cons_of_mem _ hs)) h.2]

/-- C8, as stated, fails: two usages of `Box` with the different string-form
vectors `a.b_c` and `a_b.c` (hence different usage keys) get the same name
`Box__a_b_c`, and two usages of `Pair` with the different vectors
`x_`, `y` and `x`, `_y` get the same name `Pair__x___y`. -/
theorem concreteTypeName_collision :
    (stringForms typeString [("T", .Basic "a.b_c")] [⟨"T"⟩] ≠
        stringForms typeString [("T", .Basic "a_b.c")] [⟨"T"⟩] ∧
      usageKey typeString [("T", .Basic "a.b_c")] [⟨"T"⟩] = .ok "a.b_c" ∧
      usageKey typeString [("T", .Basic "a_b.c")] [⟨"T"⟩] = .ok "a_b.c" ∧
      concreteTypeName typeString
          { name := "Box", typ := .Basic "Box", typeParams := [⟨"T"⟩], usages := [] }
          { typeMap := [("T", .Basic "a.b_c")], typ := .Basic "Box" } =
        concreteTypeName typeString
          { name := "Box", typ := .Basic "Box", typeParams := [⟨"T"⟩], usages := [] }
          { typeMap := [("T", .Basic "a_b.c")], typ := .Basic "Box" }) ∧
    (stringForms typeString [("A", .Basic "x_"), ("B", .Basic "y")] [⟨"A"⟩, ⟨"B"⟩] ≠
        stringForms typeString [("A", .Basic "x"), ("B", .Basic "_y")] [⟨"A"⟩, ⟨"B"⟩] ∧
      concreteTypeName typeString
          { name := "Pair", typ := .Basic "Pair", typeParams := [⟨"A"⟩, ⟨"B"⟩], usages := [] }
          { typeMap := [("A", .Basic "x_"), ("B", .Basic "y")], typ := .Basic "Pair" } =
        concreteTypeName typeString
          { name := "Pair", typ := .Basic "Pair", typeParams := [⟨"A"⟩, ⟨"B"⟩], usages := [] }
          { typeMap := [("A", .Basic "x"), ("B", .Basic "_y")], typ := .Basic "Pair" }) :=
  ⟨⟨by decide, rfl, rfl, rfl⟩, by decide, rfl⟩

/-- C8, amended: two usages of a declaration that bind every parameter, in
whose string forms there is no underscore and every period is followed by a
character other than a period, and whose ordered vectors of string forms
differ, get different names. -/
theorem concreteTypeName_injective (str : Ty → String) (d : GenericDecl)
    (u1 u2 : GenericUsage)
    (hb1 : ∀ p ∈ d.typeParams, (goLookup u1.typeMap p.String).isSome = true)
    (hb2 : ∀ p ∈ d.typeParams, (goLookup u2.typeMap p.String).isSome = true)
    (hc1 : ∀ s ∈ stringForms str u1.typeMap d.typeParams,
      '_' ∉ s.data ∧ eachFollowedByOther '.' s.data = true)
    (hc2 : ∀ s ∈ stringForms str u2.typeMap d.typeParams,
      '_' ∉ s.data ∧ eachFollowedByOther '.' s.data = true)
    (hne : stringForms str u1.typeMap d.typeParams ≠ stringForms str u2.typeMap d.typeParams) :
    concreteTypeName str d u1 ≠ concreteTypeName str d u2 := by
  have hsep : ∀ l : List String,
      (∀ s ∈ l, '_' ∉ s.data ∧ eachFollowedByOther '.' s.data = true) →
      ∀ s ∈ l.map replacePeriods, eachFollowedByOther '_' s.data = true := by
    intro l hl s hs
    obtain ⟨s0, hs0, e⟩ := List.mem_map.mp hs
    rw [← e]
    exact eachFollowedByOther_replacePeriods s0.data (hl s0 hs0).1 (hl s0 hs0).2
  rw [concreteTypeName_of_bound str d u1 hb1, concreteTypeName_of_bound str d u2 hb2]
  intro h
  injection h with h
  have hd := congrArg String.data h
  simp only [String.data_append, List.append_assoc] at hd
  have hj := String.ext (List.append_cancel_left (List.append_cancel_left hd))
  apply hne
  apply map_replacePeriods_injective _ _ (fun s hs => (hc1 s hs).1) (fun s hs => (hc2 s hs).1)
  apply intercalate_separated_injective _ _ _ (hsep _ hc1) (hsep _ hc2) hj
  rw [List.length_map, List.length_map, stringForms_length str _ _ hb1,
    stringForms_length str _ _ hb2]

theorem concreteTypeName_injective_witness :
    concreteTypeName typeString
        { name := "Box", typ := .Basic "Box", typeParams := [⟨"T"⟩], usages := [] }
        { typeMap := [("T", .Basic "pkg.User")], typ := .Basic "Box" } ≠
      concreteTypeName typeString
        { name := "Box", typ := .Basic "Box", typeParams := [⟨"T"⟩], usages := [] }
        { typeMap := [("T", .Basic "pkg.Admin")], typ := .Basic "Box" } :=
  concreteTypeName_injective typeString
    { name := "Box", typ := .Basic "Box", typeParams := [⟨"T"⟩], usages := [] }
    { typeMap := [("T", .Basic "pkg.User")], typ := .Basic "Box" }
    { typeMap := [("T", .Basic "pkg.Admin")], typ := .Basic "Box" }
    (by decide) (by decide) (by decide) (by decide) (by decide)

/-! ## Expansion of a generic declaration -/

theorem replaceIdent_of_not_mem (str : Ty → String) (typeMap : TypeMap) (n : String)
    (h : n ∉ goKeys typeMap) : replaceIdent str typeMap n = n := by
  simp only [replaceIdent, (goLookup_eq_none_iff typeMap n).mpr h]

theorem generateTypeSpecsLoop_spec (str : Ty → String) (d : GenericDecl) (spec : TypeSpec)
    (usages : List (String × GenericUsage))
    (hb : ∀ ku ∈ usages, ∀ p ∈ d.typeParams, (goLookup ku.2.typeMap p.String).isSome = true) :
    ∃ clones, generateTypeSpecsLoop str d spec usages = .ok clones ∧
      List.Forall₂ (fun (c : TypeSpec) (ku : String × GenericUsage) =>
        c.typeParams = none ∧ ∃ n, concreteTypeName str d ku.2 = .ok n ∧
          c.name = replaceIdent str ku.2.typeMap n) clones usages := by
  induction usages with
  | nil => exact ⟨[], rfl, List.Forall₂.nil⟩
  | cons ku usages ih =>
    obtain ⟨k, u⟩ := ku
    obtain ⟨clones, hc, hf⟩ := ih (fun ku hku => hb ku (List.mem_cons_of_mem _ hku))
    have hn := concreteTypeName_of_bound str d u (hb (k, u) (by simp))
    refine ⟨_, by simp only [generateTypeSpecsLoop, hn, hc]; rfl, ?_⟩
    exact List.Forall₂.cons ⟨rfl, _, hn, rfl⟩ hf

theorem generateFuncDeclsLoop_spec (str : Ty → String) (d : GenericDecl) (decl : FuncDecl)
    (usages : List (String × GenericUsage))
    (hb : ∀ ku ∈ usages, ∀ p ∈ d.typeParams, (goLookup ku.2.typeMap p.String).isSome = true) :
    ∃ clones, generateFuncDeclsLoop str d decl usages = .ok clones ∧
      List.Forall₂ (fun (c : FuncDecl) (ku : String × GenericUsage) =>
        c.typeParams = none ∧ ∃ n, concreteTypeName str d ku.2 = .ok n ∧
          c.name = replaceIdent str ku.2.typeMap n) clones usages := by
  induction usages with
  | nil => exact ⟨[], rfl, List.Forall₂.nil⟩
  | cons ku usages ih =>
    obtain ⟨k, u⟩ := ku
    obtain ⟨clones, hc, hf⟩ := ih (fun ku hku => hb ku (List.mem_cons_of_mem _ hku))
    have hn := concreteTypeName_of_bound str d u (hb (k, u) (by simp))
    refine ⟨_, by simp only [generateFuncDeclsLoop, hn, hc]; rfl, ?_⟩
    exact List.Forall₂.cons ⟨rfl, _, hn, rfl⟩ hf

/-- Names of the clones against the mangled names of the usages, when no
mangled name is a key of its usage's map. -/
theorem clone_names_eq {γ : Type} (str : Ty → String) (d : GenericDecl) (nameOf : γ → String)
    (tpOf : γ → Option TypeParamDecl) (clones : List γ) (usages : List (String × GenericUsage))
    (hf : List.Forall₂ (fun (c : γ) (ku : String × GenericUsage) =>
        tpOf c = none ∧ ∃ n, concreteTypeName str d ku.2 = .ok n ∧
          nameOf c = replaceIdent str ku.2.typeMap n) clones usages)
    (hk : ∀ ku ∈ usages, ∀ n, concreteTypeName str d ku.2 = .ok n → n ∉ goKeys ku.2.typeMap) :
    (clones.map nameOf).map Except.ok = usages.map (fun ku => concreteTypeName str d ku.2) := by
  induction hf with
  | nil => rfl
  | @cons c ku cs us h _ ih =>
    obtain ⟨_, n, hn, hc⟩ := h
    rw [replaceIdent_of_not_mem str _ n (hk ku (by simp) n hn)] at hc
    simp only [List.map_cons, hc, hn, List.cons.injEq, true_and]
    exact ih (fun ku hku => hk ku (List.mem_cons_of_mem _ hku))

theorem count_eq_one_of_nodup (names : List String) (L : List (Except Err String))
    (h : names.map Except.ok = L) (hnd : L.Nodup) (n : String) (hn : Except.ok n ∈ L) :
    names.count n = 1 := by
  subst h
  have hnd1 : names.Nodup := List.Nodup.of_map _ hnd
  obtain ⟨m, hm, hmn⟩ := List.mem_map.mp hn
  injection hmn with hmn
  subst hmn
  exact List.count_eq_one_of_mem hnd1 hm

/-- C9, as stated, fails: with the usages of `Box` at `a.b_c` and at `a_b.c`
registered, `generateTypeSpecs` returns two clones, both named `Box__a_b_c`,
which is the mangled name of each of the two usages. -/
theorem generateTypeSpecs_name_shared :
    generateTypeSpecs typeString sampleRegistryBoxQualified sampleBoxSpec =
        .ok [{ name := "Box__a_b_c", typeParams := none,
               type := .Other "StructType" [.Other "Field" [.Ident "v", .Ident "a.b_c"]] },
             { name := "Box__a_b_c", typeParams := none,
               type := .Other "StructType" [.Other "Field" [.Ident "v", .Ident "a_b.c"]] }] ∧
      concreteTypeName typeString
          { name := "Box", typ := .Basic "Box", typeParams := [⟨"T"⟩], usages := [] }
          { typeMap := [("T", .Basic "a.b_c")], typ := .Basic "Box" } = .ok "Box__a_b_c" ∧
      concreteTypeName typeString
          { name := "Box", typ := .Basic "Box", typeParams := [⟨"T"⟩], usages := [] }
          { typeMap := [("T", .Basic "a_b.c")], typ := .Basic "Box" } = .ok "Box__a_b_c" ∧
      (["Box__a_b_c", "Box__a_b_c"].count "Box__a_b_c" = 2) :=
  ⟨rfl, rfl, rfl, by decide⟩

/-- C9, amended: for a registered declaration `d` whose usages bind every
parameter of `d`, and a type specification (respectively function
declaration) named `d.name`, `generateTypeSpecs` (respectively
`generateFuncDecls`) returns one clone per usage of `d`, in iteration order
and nothing else; every clone has its type-parameter list cleared and the
clone of `u` is named `concreteTypeName(d, u)` after the identifier rewrite
with `u`'s map, which leaves that name alone unless it is a key of the map.
When no mangled name is a key of its usage's map and the mangled names of the
usages are pairwise different, exactly one clone carries the mangled name of
each usage. -/
theorem generate_one_clone_per_usage (str : Ty → String) (g : Generics) (d : GenericDecl)
    (hb : ∀ ku ∈ d.usages, ∀ p ∈ d.typeParams,
      (goLookup ku.2.typeMap p.String).isSome = true) :
    (∀ typeSpec : TypeSpec, goLookup g typeSpec.name = some d →
      ∃ clones, generateTypeSpecs str g typeSpec = .ok clones ∧
        List.Forall₂ (fun (c : TypeSpec) (ku : String × GenericUsage) =>
          c.typeParams = none ∧ ∃ n, concreteTypeName str d ku.2 = .ok n ∧
            c.name = replaceIdent str ku.2.typeMap n ∧
            (n ∉ goKeys ku.2.typeMap → c.name = n)) clones d.usages ∧
        ((∀ ku ∈ d.usages, ∀ n, concreteTypeName str d ku.2 = .ok n →
            n ∉ goKeys ku.2.typeMap) →
          (d.usages.map (fun ku => concreteTypeName str d ku.2)).Nodup →
          ∀ ku ∈ d.usages, ∀ n, concreteTypeName str d ku.2 = .ok n →
            (clones.map (fun c => c.name)).count n = 1)) ∧
    (∀ funcDecl : FuncDecl, goLookup g funcDecl.name = some d →
      ∃ clones, generateFuncDecls str g funcDecl = .ok clones ∧
        List.Forall₂ (fun (c : FuncDecl) (ku : String × GenericUsage) =>
          c.typeParams = none ∧ ∃ n, concreteTypeName str d ku.2 = .ok n ∧
            c.name = replaceIdent str ku.2.typeMap n ∧
            (n ∉ goKeys ku.2.typeMap → c.name = n)) clones d.usages ∧
        ((∀ ku ∈ d.usages, ∀ n, concreteTypeName str d ku.2 = .ok n →
            n ∉ goKeys ku.2.typeMap) →
          (d.usages.map (fun ku => concreteTypeName str d ku.2)).Nodup →
          ∀ ku ∈ d.usages, ∀ n, concreteTypeName str d ku.2 = .ok n →
            (clones.map (fun c => c.name)).count n = 1)) := by
  constructor
  · intro typeSpec hd
    obtain ⟨clones, hc, hf⟩ :=
      generateTypeSpecsLoop_spec str d (disambiguateArrayType typeSpec) d.usages hb
    refine ⟨clones, by simp only [generateTypeSpecs, hd, hc], ?_, ?_⟩
    · refine hf.imp ?_
      rintro c ku ⟨h1, n, h2, h3⟩
      exact ⟨h1, n, h2, h3, fun hn => by rw [h3, replaceIdent_of_not_mem str _ n hn]⟩
    · intro hk hnd ku hku n hn
      have hnames := clone_names_eq str d (fun c : TypeSpec => c.name)
        (fun c => c.typeParams) clones d.usages hf hk
      exact count_eq_one_of_nodup _ _ hnames hnd n
        (List.mem_map.mpr ⟨ku, hku, hn⟩)
  · intro funcDecl hd
    obtain ⟨clones, hc, hf⟩ := generateFuncDeclsLoop_spec str d funcDecl d.usages hb
    refine ⟨clones, by simp only [generateFuncDecls, hd, hc], ?_, ?_⟩
    · refine hf.imp ?_
      rintro c ku ⟨h1, n, h2, h3⟩
      exact ⟨h1, n, h2, h3, fun hn => by rw [h3, replaceIdent_of_not_mem str _ n hn]⟩
    · intro hk hnd ku hku n hn
      have hnames := clone_names_eq str d (fun c : FuncDecl => c.name)
        (fun c => c.typeParams) clones d.usages hf hk
      exact count_eq_one_of_nodup _ _ hnames hnd n
        (List.mem_map.mpr ⟨ku, hku, hn⟩)

theorem generate_one_clone_per_usage_witness :
    (∃ clones, generateTypeSpecs typeString sampleRegistryBox sampleBoxSpec = .ok clones ∧
        clones.length = 2 ∧ (clones.map (fun c => c.name)).count "Box__int" = 1) ∧
      (∃ clones, generateFuncDecls typeString sampleRegistryBox sampleBoxFunc = .ok clones ∧
        clones.length = 2 ∧ (clones.map (fun c => c.name)).count "Box__string" = 1) := by
  have hkeys : ∀ ku ∈ sampleDeclBox.usages, ∀ n,
      concreteTypeName typeString sampleDeclBox ku.2 = .ok n → n ∉ goKeys ku.2.typeMap := by
    intro ku hku n hn
    simp only [sampleDeclBox, List.mem_cons, List.mem_singleton, List.not_mem_nil,
      or_false] at hku
    rcases hku with rfl | rfl
    · have h1 : concreteTypeName typeString sampleDeclBox
          { typeMap := [("T", .Basic "int")], typ := .Basic "Box" } = .ok "Box__int" := rfl
      rw [h1] at hn
      injection hn with hn
      subst hn
      decide
    · have h1 : concreteTypeName typeString sampleDeclBox
          { typeMap := [("T", .Basic "string")], typ := .Basic "Box" } = .ok "Box__string" := rfl
      rw [h1] at hn
      injection hn with hn
      subst hn
      decide
  have hnodup : (sampleDeclBox.usages.map
      (fun ku => concreteTypeName typeString sampleDeclBox ku.2)).Nodup := by
    have h1 : sampleDeclBox.usages.map
        (fun ku => concreteTypeName typeString sampleDeclBox ku.2) =
        [.ok "Box__int", .ok "Box__string"] := rfl
    rw [h1]
    simp only [List.nodup_cons, List.mem_singleton, List.not_mem_nil, not_false_eq_true,
      List.nodup_nil, and_true]
    intro h
    injection h with h
    exact absurd h (by decide)
  have h := generate_one_clone_per_usage typeString sampleRegistryBox sampleDeclBox (by decide)
  constructor
  · obtain ⟨clones, h1, h2, h3⟩ := h.1 sampleBoxSpec rfl
    exact ⟨clones, h1, by rw [h2.length_eq]; rfl,
      h3 hkeys hnodup _ (List.mem_cons_self _ _) "Box__int" rfl⟩
  · obtain ⟨clones, h1, h2, h3⟩ := h.2 sampleBoxFunc rfl
    exact ⟨clones, h1, by rw [h2.length_eq]; rfl,
      h3 hkeys hnodup _ (List.mem_cons_of_mem _ (List.mem_cons_self _ _)) "Box__string" rfl⟩

/-! ## Registry invariants along a substitution -/

mutual
theorem replaceTypes_preserves (str : Ty → String) (P : Object → TypeMap → Prop)
    (S : TypeMap → Prop) (I : Generics → Prop)
    (hS : ∀ o m sigma, P o m → S sigma → S (newTypeMapLoop sigma m []))
    (hstep : ∀ o t m sigma g g1, P o m → S sigma → I g →
      addGenericUsage str o t (newTypeMapLoop sigma m []) g = .ok g1 → I g1)
    (root : Ty) (sigma : TypeMap) (g : Generics) (r : Ty)
    (g1 : Generics) (hP : instancesSatisfy P root) (hs : S sigma) (hI : I g)
    (h : replaceTypes str root sigma g = .ok (r, g1)) : I g1 := by
  cases root with
  | Basic n => simp only [replaceTypes, Except.ok.injEq, Prod.mk.injEq] at h; exact h.2 ▸ hI
  | Tuple n => simp only [replaceTypes, Except.ok.injEq, Prod.mk.injEq] at h; exact h.2 ▸ hI
  | ConcreteSignature n =>
    simp only [replaceTypes, Except.ok.injEq, Prod.mk.injEq] at h; exact h.2 ▸ hI
  | TypeParam p =>
    simp only [replaceTypes] at h
    split at h
    · split at h <;> (cases h; exact hI)
    · cases h
  | Pointer b =>
    simp only [replaceTypes] at h
    simp only [instancesSatisfy] at hP
    split at h
    · cases h
    · rename_i b1 g2 hb
      cases h
      exact replaceTypes_preserves str P S I hS hstep b sigma g _ _ hP hs hI hb
  | Slice b =>
    simp only [replaceTypes] at h
    simp only [instancesSatisfy] at hP
    split at h
    · cases h
    · rename_i b1 g2 hb
      cases h
      exact replaceTypes_preserves str P S I hS hstep b sigma g _ _ hP hs hI hb
  | Array n b =>
    simp only [replaceTypes] at h
    simp only [instancesSatisfy] at hP
    split at h
    · cases h
    · rename_i b1 g2 hb
      cases h
      exact replaceTypes_preserves str P S I hS hstep b sigma g _ _ hP hs hI hb
  | Chan n b =>
    simp only [replaceTypes] at h
    simp only [instancesSatisfy] at hP
    split at h
    · cases h
    · rename_i b1 g2 hb
      cases h
      exact replaceTypes_preserves str P S I hS hstep b sigma g _ _ hP hs hI hb
  | Map k v =>
    simp only [replaceTypes] at h
    simp only [instancesSatisfy] at hP
    split at h
    · cases h
    · rename_i k1 g2 hk
      split at h
      · cases h
      · rename_i v1 g3 hv
        cases h
        exact replaceTypes_preserves str P S I hS hstep v sigma _ _ _ hP.2 hs
          (replaceTypes_preserves str P S I hS hstep k sigma g _ _ hP.1 hs hI hk) hv
  | Struct s =>
    simp only [replaceTypes] at h
    split at h
    · cases h
    · rename_i b1 g2 hb
      cases h
      exact replaceTypesInStruct_preserves str P S I hS hstep s sigma g _ _ hP hs hI hb
  | Signature s =>
    simp only [replaceTypes] at h
    split at h
    · cases h
    · rename_i b1 g2 hb
      cases h
      exact replaceTypesInSignature_preserves str P S I hS hstep s sigma g _ _ hP hs hI hb
  | Named s =>
    simp only [replaceTypes] at h
    split at h
    · cases h
    · rename_i b1 g2 hb
      cases h
      exact replaceTypesInNamed_preserves str P S I hS hstep s sigma g _ _ hP hs hI hb
  | ConcreteNamed s =>
    simp only [replaceTypes] at h
    split at h
    · cases h
    · rename_i b1 g2 hb
      cases h
      exact replaceTypesInConcreteNamed_preserves str P S I hS hstep s sigma g _ _ hP hs hI hb
termination_by structural root

theorem replaceTypesInVars_preserves (str : Ty → String) (P : Object → TypeMap → Prop)
    (S : TypeMap → Prop) (I : Generics → Prop)
    (hS : ∀ o m sigma, P o m → S sigma → S (newTypeMapLoop sigma m []))
    (hstep : ∀ o t m sigma g g1, P o m → S sigma → I g →
      addGenericUsage str o t (newTypeMapLoop sigma m []) g = .ok g1 → I g1)
    (vars : List Var) (sigma : TypeMap) (g : Generics)
    (r : List Var) (g1 : Generics) (hP : instancesSatisfyVars P vars) (hs : S sigma)
    (hI : I g) (h : replaceTypesInVars str vars sigma g = .ok (r, g1)) : I g1 := by
  cases vars with
  | nil =>
    simp only [replaceTypesInVars, Except.ok.injEq, Prod.mk.injEq] at h; exact h.2 ▸ hI
  | cons v rest =>
    cases v with
    | mk name typ =>
      simp only [replaceTypesInVars] at h
      simp only [instancesSatisfyVars] at hP
      split at h
      · cases h
      · rename_i t1 g2 ht
        split at h
        · cases h
        · rename_i r1 g3 hr
          cases h
          exact replaceTypesInVars_preserves str P S I hS hstep rest sigma _ _ _ hP.2 hs
            (replaceTypes_preserves str P S I hS hstep typ sigma g _ _ hP.1 hs hI ht) hr
termination_by structural vars

theorem replaceTypesInStruct_preserves (str : Ty → String) (P : Object → TypeMap → Prop)
    (S : TypeMap → Prop) (I : Generics → Prop)
    (hS : ∀ o m sigma, P o m → S sigma → S (newTypeMapLoop sigma m []))
    (hstep : ∀ o t m sigma g g1, P o m → S sigma → I g →
      addGenericUsage str o t (newTypeMapLoop sigma m []) g = .ok g1 → I g1)
    (root : Struct) (sigma : TypeMap) (g : Generics)
    (r : Struct) (g1 : Generics) (hP : instancesSatisfy P (.Struct root)) (hs : S sigma)
    (hI : I g) (h : replaceTypesInStruct str root sigma g = .ok (r, g1)) : I g1 := by
  cases root with
  | mk fields tags =>
    simp only [replaceTypesInStruct] at h
    simp only [instancesSatisfy] at hP
    split at h
    · cases h
    · rename_i t1 g2 ht
      cases h
      exact replaceTypesInVars_preserves str P S I hS hstep fields sigma g _ _ hP hs hI ht
termination_by structural root

theorem replaceTypesInRecv_preserves (str : Ty → String) (P : Object → TypeMap → Prop)
    (S : TypeMap → Prop) (I : Generics → Prop)
    (hS : ∀ o m sigma, P o m → S sigma → S (newTypeMapLoop sigma m []))
    (hstep : ∀ o t m sigma g g1, P o m → S sigma → I g →
      addGenericUsage str o t (newTypeMapLoop sigma m []) g = .ok g1 → I g1)
    (recv : Option Var) (sigma : TypeMap) (g : Generics)
    (g1 : Generics) (hP : instancesSatisfyRecv P recv) (hs : S sigma) (hI : I g)
    (h : replaceTypesInRecv str recv sigma g = .ok g1) : I g1 := by
  cases recv with
  | none => simp only [replaceTypesInRecv, Except.ok.injEq] at h; exact h ▸ hI
  | some v =>
    cases v with
    | mk n t =>
      simp only [replaceTypesInRecv] at h
      simp only [instancesSatisfyRecv] at hP
      split at h
      · cases h
      · rename_i t1 gd ht
        cases h
        exact replaceTypes_preserves str P S I hS hstep t sigma g _ _ hP hs hI ht
termination_by structural recv

theorem replaceTypesInSignature_preserves (str : Ty → String) (P : Object → TypeMap → Prop)
    (S : TypeMap → Prop) (I : Generics → Prop)
    (hS : ∀ o m sigma, P o m → S sigma → S (newTypeMapLoop sigma m []))
    (hstep : ∀ o t m sigma g g1, P o m → S sigma → I g →
      addGenericUsage str o t (newTypeMapLoop sigma m []) g = .ok g1 → I g1)
    (root : Signature) (sigma : TypeMap) (g : Generics)
    (r : Signature) (g1 : Generics) (hP : instancesSatisfy P (.Signature root)) (hs : S sigma)
    (hI : I g) (h : replaceTypesInSignature str root sigma g = .ok (r, g1)) : I g1 := by
  cases root with
  | mk recv params results variadic typeParams =>
    simp only [replaceTypesInSignature] at h
    simp only [instancesSatisfy] at hP
    split at h
    · cases h
    · rename_i ga hga
      split at h
      · cases h
      · rename_i ps gb hps
        split at h
        · cases h
        · rename_i rs gc hrs
          cases h
          have hIa := replaceTypesInRecv_preserves str P S I hS hstep recv sigma g _ hP.1 hs hI
            hga
          have hIb := replaceTypesInVars_preserves str P S I hS hstep params sigma _ _ _ hP.2.1
            hs hIa hps
          exact replaceTypesInVars_preserves str P S I hS hstep results sigma _ _ _ hP.2.2 hs
            hIb hrs
termination_by structural root

theorem replaceTypesInNamed_preserves (str : Ty → String) (P : Object → TypeMap → Prop)
    (S : TypeMap → Prop) (I : Generics → Prop)
    (hS : ∀ o m sigma, P o m → S sigma → S (newTypeMapLoop sigma m []))
    (hstep : ∀ o t m sigma g g1, P o m → S sigma → I g →
      addGenericUsage str o t (newTypeMapLoop sigma m []) g = .ok g1 → I g1)
    (root : Named) (sigma : TypeMap) (g : Generics)
    (r : Named) (g1 : Generics) (hP : instancesSatisfy P (.Named root)) (hs : S sigma)
    (hI : I g) (h : replaceTypesInNamed str root sigma g = .ok (r, g1)) : I g1 := by
  cases root with
  | mk obj underlying typeParams =>
    simp only [replaceTypesInNamed] at h
    simp only [instancesSatisfy] at hP
    split at h
    · cases h
    · rename_i t1 g2 ht
      cases h
      exact replaceTypes_preserves str P S I hS hstep underlying sigma g _ _ hP hs hI ht
termination_by structural root

theorem replaceTypesInConcreteNamed_preserves (str : Ty → String) (P : Object → TypeMap → Prop)
    (S : TypeMap → Prop) (I : Generics → Prop)
    (hS : ∀ o m sigma, P o m → S sigma → S (newTypeMapLoop sigma m []))
    (hstep : ∀ o t m sigma g g1, P o m → S sigma → I g →
      addGenericUsage str o t (newTypeMapLoop sigma m []) g = .ok g1 → I g1)
    (root : ConcreteNamed) (sigma : TypeMap)
    (g : Generics) (r : ConcreteNamed) (g1 : Generics)
    (hP : instancesSatisfy P (.ConcreteNamed root)) (hs : S sigma) (hI : I g)
    (h : replaceTypesInConcreteNamed str root sigma g = .ok (r, g1)) : I g1 := by
  cases root with
  | mk named typeParams typeMap =>
    cases named with
    | mk obj underlying ntp =>
      simp only [replaceTypesInConcreteNamed] at h
      simp only [instancesSatisfy] at hP
      split at h
      · cases h
      · rename_i n1 g2 hn
        split at h
        · cases h
        · rename_i g3 hu
          cases h
          have hs1 := hS obj typeMap sigma hP.1 hs
          have hI1 := replaceTypesInNamed_preserves str P S I hS hstep
            (.mk obj underlying ntp) _ g _ _
            (by simp only [instancesSatisfy]; exact hP.2) hs1 hI hn
          exact hstep _ _ _ _ _ _ hP.1 hs hI1 hu
termination_by structural root
end


/-! ## Nested instantiation -/

theorem inheritedValue_distinguished (str : Ty → String) (A : Ty) (sigma : TypeMap) (x : Ty)
    (hs : valuesDistinguished str A sigma)
    (hx : x.isTypeParam = true ∨ x = A ∨ str x ≠ str A) :
    (inheritedValue sigma x).isTypeParam = true ∨ inheritedValue sigma x = A ∨
      str (inheritedValue sigma x) ≠ str A := by
  cases x with
  | TypeParam q =>
    simp only [inheritedValue]
    cases hq : goLookup sigma q.String with
    | none => exact Or.inl rfl
    | some t =>
      simp only
      by_cases ht : t.isTypeParam = true
      · rw [if_pos ht]
        exact Or.inl rfl
      · rw [if_neg ht]
        rcases hs _ (goLookup_mem sigma _ _ hq) with h1 | h1 | h1
        · exact absurd h1 ht
        · exact Or.inr (Or.inl h1)
        · exact Or.inr (Or.inr h1)
  | _ => exact hx

theorem newTypeMapLoop_distinguished (str : Ty → String) (H : String) (U : TypeParam) (A : Ty)
    (o : Object) (m sigma : TypeMap) (hP : instanceWellFormed str H U A o m)
    (hs : valuesDistinguished str A sigma) :
    valuesDistinguished str A (newTypeMapLoop sigma m []) := by
  rw [newTypeMapLoop_nil_eq sigma m hP.1]
  intro kv hkv
  obtain ⟨kx, hkx, rfl⟩ := List.mem_map.mp hkv
  exact inheritedValue_distinguished str A sigma kx.2 hs (hP.2.1 kx hkx)

theorem goKeys_singleton {α : Type} (m : List (String × α)) (k : String)
    (h : goKeys m = [k]) : ∃ x, m = [(k, x)] := by
  cases m with
  | nil => simp [goKeys] at h
  | cons kv m =>
    obtain ⟨k0, v0⟩ := kv
    cases m with
    | nil =>
      simp only [goKeys, List.map_cons, List.map_nil, List.cons.injEq, and_true] at h
      exact ⟨v0, by rw [h]⟩
    | cons kv1 m => simp [goKeys] at h

theorem usageKey_single (str : Ty → String) (U : TypeParam) (B : Ty) :
    usageKey str [(U.String, B)] [U] = .ok (str B) := by
  simp [usageKey, stringParams, goLookup, String.intercalate, String.intercalate.go]

theorem addGenericUsage_hasDecl (str : Ty → String) (N : String) (ps : List TypeParam)
    (o : Object) (t : Ty) (m : TypeMap) (g g1 : Generics) (hd : hasDecl g N ps)
    (h : addGenericUsage str o t m g = .ok g1) : hasDecl g1 N ps := by
  unfold addGenericUsage at h
  split at h
  · cases h; exact hd
  · split at h
    · cases h
    · rename_i d0 hd0
      split at h
      · cases h
      · cases h
        obtain ⟨d, hd1, hd2⟩ := hd
        by_cases hN : o.name = N
        · rw [hN] at hd0 ⊢
          rw [hd1] at hd0
          cases hd0
          exact ⟨_, goLookup_goInsert_same _ _ _, hd2⟩
        · exact ⟨d, by rw [goLookup_goInsert_other _ _ _ _ hN]; exact hd1, hd2⟩

theorem addGenericUsage_hasUsage (str : Ty → String) (H : String) (U : TypeParam) (A : Ty)
    (o : Object) (t : Ty) (m sigma : TypeMap) (g g1 : Generics)
    (hP : instanceWellFormed str H U A o m) (hs : valuesDistinguished str A sigma)
    (hu : hasUsage g H [U] (str A) [(U.String, A)])
    (h : addGenericUsage str o t (newTypeMapLoop sigma m []) g = .ok g1) :
    hasUsage g1 H [U] (str A) [(U.String, A)] := by
  have hv := newTypeMapLoop_distinguished str H U A o m sigma hP hs
  unfold addGenericUsage at h
  split at h
  · cases h; exact hu
  · rename_i hany
    split at h
    · cases h
    · rename_i d0 hd0
      split at h
      · cases h
      · rename_i key hkey
        cases h
        obtain ⟨d, u, hd1, hd2, hd3, hd4⟩ := hu
        by_cases hN : o.name = H
        · rw [hN] at hd0 ⊢
          rw [hd1] at hd0
          cases hd0
          obtain ⟨x, hx⟩ := goKeys_singleton m _ (hP.2.2 hN)
          subst hx
          have hnew : newTypeMapLoop sigma [(U.String, x)] [] =
              [(U.String, inheritedValue sigma x)] := by
            rw [newTypeMapLoop_step]; rfl
          rw [hnew] at hkey hany hv ⊢
          rw [hd2, usageKey_single] at hkey
          cases hkey
          have hB := hv (U.String, inheritedValue sigma x) (by simp)
          simp only at hB
          simp only [List.any_cons, List.any_nil, Bool.or_false] at hany
          rcases hB with hB | hB | hB
          · exact absurd hB hany
          · rw [hB]
            exact ⟨_, _, goLookup_goInsert_same _ _ _, hd2, goLookup_goInsert_same _ _ _, rfl⟩
          · refine ⟨_, u, goLookup_goInsert_same _ _ _, hd2, ?_, hd4⟩
            simp only
            rw [goLookup_goInsert_other _ _ _ _ hB]
            exact hd3
        · exact ⟨d, u, by rw [goLookup_goInsert_other _ _ _ _ hN]; exact hd1, hd2, hd3, hd4⟩

theorem replaceTypesInVars_append (str : Ty → String) (pre rest : List Var) (sigma : TypeMap)
    (g : Generics) (r : List Var) (g1 : Generics)
    (h : replaceTypesInVars str (pre ++ rest) sigma g = .ok (r, g1)) :
    ∃ r1 gm r2, replaceTypesInVars str pre sigma g = .ok (r1, gm) ∧
      replaceTypesInVars str rest sigma gm = .ok (r2, g1) ∧ r = r1 ++ r2 := by
  induction pre generalizing g r with
  | nil => exact ⟨[], g, r, by simp [replaceTypesInVars], h, rfl⟩
  | cons v pre ih =>
    cases v with
    | mk name typ =>
      simp only [List.cons_append, replaceTypesInVars] at h ⊢
      split at h
      · cases h
      · rename_i t1 g2 ht
        split at h
        · cases h
        · rename_i r1 g3 hr
          cases h
          obtain ⟨r1a, gm, r2, h1, h2, h3⟩ := ih _ _ hr
          exact ⟨Var.mk name t1 :: r1a, gm, r2, by simp only [ht, h1], h2, by rw [h3]; rfl⟩

theorem instancesSatisfyVars_append (P : Object → TypeMap → Prop) (pre rest : List Var) :
    instancesSatisfyVars P (pre ++ rest) ↔
      instancesSatisfyVars P pre ∧ instancesSatisfyVars P rest := by
  induction pre with
  | nil => simp [instancesSatisfyVars]
  | cons v pre ih =>
    cases v with
    | mk name typ =>
      simp only [List.cons_append, instancesSatisfyVars, List.append_eq, ih, and_assoc]

theorem addGenericUsage_single (str : Ty → String) (N : String) (V : TypeParam) (A t : Ty)
    (o : Object) (g g1 : Generics) (ho : o.name = N) (hA : A.isTypeParam = false)
    (hd : hasDecl g N [V])
    (h : addGenericUsage str o t [(V.String, A)] g = .ok g1) :
    ∃ d, goLookup g N = some d ∧
      g1 = goInsert g N (GenericDecl.mk d.name d.typ d.typeParams
        (goInsert d.usages (str A) (GenericUsage.mk [(V.String, A)] t))) := by
  obtain ⟨d, hd1, hd2⟩ := hd
  unfold addGenericUsage at h
  simp only [List.any_cons, List.any_nil, Bool.or_false, hA, Bool.false_eq_true, if_false, ho,
    hd1, hd2, usageKey_single, Except.ok.injEq] at h
  refine ⟨d, hd1, ?_⟩
  rw [hd2]
  exact h.symm

/-- C3, as stated, fails: for `type H[U] struct { v U }` and
`type G[T] struct { h H[T]; k H[X] }`, where the inner type `X` prints like
the outer type `X`, the instantiation of `G` with the outer `X` returns, and
the usage that `H` then holds under `usageKey` of `U -> X` (outer) has the
map `U -> X` (inner): the usage of the field `k` has overwritten the one of
the field `h`. -/
theorem nested_instantiation_overwritten :
    hasDecl sampleRegistryGH "G" [⟨"T"⟩] ∧ hasDecl sampleRegistryGH "H" [⟨"U"⟩] ∧
      sampleShadowed.isTypeParam = false ∧
      concreteTypeNamed typeString sampleOuterShadow [("T", sampleShadowed)]
          sampleRegistryGH = .ok (sampleOuterShadowed, sampleRegistryShadow) ∧
      ¬ (∃ kH dH uH, usageKey typeString [("U", sampleShadowed)] [⟨"U"⟩] = .ok kH ∧
          goLookup sampleRegistryShadow "H" = some dH ∧
          goLookup dH.usages kH = some uH ∧ uH.typeMap = [("U", sampleShadowed)]) := by
  refine ⟨⟨_, rfl, rfl⟩, ⟨_, rfl, rfl⟩, rfl, rfl, ?_⟩
  rintro ⟨kH, dH, uH, hk, hd, hu, hm⟩
  have hk0 : usageKey typeString [("U", sampleShadowed)] [⟨"U"⟩] = .ok "X" := rfl
  rw [hk0] at hk
  cases hk
  have hd0 : goLookup sampleRegistryShadow "H" =
      some { name := "H", typ := .Basic "H", typeParams := [⟨"U"⟩],
             usages := [("X", { typeMap := [("U", sampleShadowing)],
                                typ := .ConcreteNamed sampleInnerShadowing })] } := rfl
  rw [hd0] at hd
  cases hd
  have hu0 : goLookup [("X", GenericUsage.mk [("U", sampleShadowing)]
      (.ConcreteNamed sampleInnerShadowing))] "X" =
      some (GenericUsage.mk [("U", sampleShadowing)]
        (.ConcreteNamed sampleInnerShadowing)) := rfl
  rw [hu0] at hu
  cases hu
  simp [sampleShadowing, sampleShadowed] at hm

/-- C3, amended: nested instantiation. In a registry that holds `G` with the
single parameter `T` and `H` with the single parameter `U`, let the
underlying structure of `G` have a field of type `H[T]` (the instantiation
of `H` with map `U -> T`), let `A` be a non-parameter type, and let the
instantiations nested in `G` be well formed in the sense of
`instanceWellFormed`: their maps have distinct keys, an instantiation of `H`
has the domain `U`, and the string form tells `A` apart from every other
type argument. When the instantiation step of `concreteType` on `G` with the
map `T -> A` returns, the registry holds a usage of `H` under `usageKey` of
`U -> A` whose map is `U -> A`, and a usage of `G` under `usageKey` of
`T -> A` holding the map `T -> A` and the returned type. -/
theorem nested_instantiation (str : Ty → String) (g : Generics) (G H : String)
    (T U : TypeParam) (A : Ty) (pre post : List Var) (fname : String) (Hn : Named)
    (tags : List String) (R : Ty) (g1 : Generics)
    (hG : hasDecl g G [T]) (hH : hasDecl g H [U]) (hHn : Hn.obj.name = H)
    (hA : A.isTypeParam = false)
    (hwf : instancesSatisfy (instanceWellFormed str H U A)
      (.Struct (.mk (pre ++ Var.mk fname
        (.ConcreteNamed (.mk Hn [U] [(U.String, .TypeParam T)])) :: post) tags)))
    (hret : concreteTypeNamed str
      (.mk ⟨G⟩ (.Struct (.mk (pre ++ Var.mk fname
        (.ConcreteNamed (.mk Hn [U] [(U.String, .TypeParam T)])) :: post) tags)) [T])
      [(T.String, A)] g = .ok (R, g1)) :
    (∃ kH dH uH, usageKey str [(U.String, A)] [U] = .ok kH ∧ goLookup g1 H = some dH ∧
        goLookup dH.usages kH = some uH ∧ uH.typeMap = [(U.String, A)]) ∧
      (∃ kG dG uG, usageKey str [(T.String, A)] [T] = .ok kG ∧ goLookup g1 G = some dG ∧
        goLookup dG.usages kG = some uG ∧ uG.typeMap = [(T.String, A)] ∧ uG.typ = R) := by
  have hS : ∀ o m sigma, instanceWellFormed str H U A o m → valuesDistinguished str A sigma →
      valuesDistinguished str A (newTypeMapLoop sigma m []) :=
    fun o m sigma hP hs => newTypeMapLoop_distinguished str H U A o m sigma hP hs
  have stepDecl : ∀ (N : String) (ps : List TypeParam) (o : Object) (t : Ty) (m sigma : TypeMap)
      (ga gb : Generics), instanceWellFormed str H U A o m → valuesDistinguished str A sigma →
      hasDecl ga N ps → addGenericUsage str o t (newTypeMapLoop sigma m []) ga = .ok gb →
      hasDecl gb N ps :=
    fun N ps o t m sigma ga gb _ _ hI h => addGenericUsage_hasDecl str N ps o t _ ga gb hI h
  have stepUsage : ∀ (o : Object) (t : Ty) (m sigma : TypeMap) (ga gb : Generics),
      instanceWellFormed str H U A o m → valuesDistinguished str A sigma →
      hasUsage ga H [U] (str A) [(U.String, A)] →
      addGenericUsage str o t (newTypeMapLoop sigma m []) ga = .ok gb →
      hasUsage gb H [U] (str A) [(U.String, A)] :=
    fun o t m sigma ga gb hP hs hI h =>
      addGenericUsage_hasUsage str H U A o t m sigma ga gb hP hs hI h
  have hsT : valuesDistinguished str A [(T.String, A)] := by
    intro kv hkv
    simp only [List.mem_singleton] at hkv
    subst hkv
    exact Or.inr (Or.inl rfl)
  have hsU : valuesDistinguished str A [(U.String, A)] := by
    intro kv hkv
    simp only [List.mem_singleton] at hkv
    subst hkv
    exact Or.inr (Or.inl rfl)
  -- unfold the instantiation step
  simp only [concreteTypeNamed] at hret
  split at hret
  · cases hret
  rename_i newNamed gA hnamed
  split at hret
  · cases hret
  rename_i gB husage
  cases hret
  simp only [replaceTypesInNamed, replaceTypes, replaceTypesInStruct] at hnamed
  split at hnamed
  · cases hnamed
  rename_i newUnd gC hund
  cases hnamed
  split at hund
  · cases hund
  rename_i newStruct gD hstruct
  cases hund
  split at hstruct
  · cases hstruct
  rename_i newFields gE hvars
  cases hstruct
  -- the registry still declares `G` after the fields
  simp only [instancesSatisfy] at hwf
  have hGA : hasDecl gA G [T] :=
    replaceTypesInVars_preserves str _ _ (fun ga => hasDecl ga G [T]) hS (stepDecl G [T])
      _ _ g _ _ hwf hsT hG hvars
  -- split the fields at the field of type `H[T]`
  obtain ⟨r1, gm, r2, hpre, hrest, _⟩ := replaceTypesInVars_append str _ _ _ _ _ _ hvars
  rw [instancesSatisfyVars_append] at hwf
  obtain ⟨hwfPre, hwfRest⟩ := hwf
  simp only [instancesSatisfyVars] at hwfRest
  obtain ⟨hwfField, hwfPost⟩ := hwfRest
  have hHm : hasDecl gm H [U] :=
    replaceTypesInVars_preserves str _ _ (fun ga => hasDecl ga H [U]) hS (stepDecl H [U])
      _ _ g _ _ hwfPre hsT hH hpre
  cases Hn with
  | mk hobj hunderlying htps =>
  simp only [Named.obj] at hHn
  simp only [instancesSatisfy] at hwfField
  simp only [replaceTypesInVars, replaceTypes, replaceTypesInConcreteNamed] at hrest
  have hnew : newTypeMapLoop [(T.String, A)] [(U.String, .TypeParam T)] [] =
      [(U.String, A)] := by
    rw [newTypeMapLoop_step]
    simp [inheritedValue, goLookup, hA, goInsert, newTypeMapLoop]
  rw [hnew] at hrest
  split at hrest
  · cases hrest
  rename_i t1 gm1 hfield
  split at hrest
  · cases hrest
  rename_i r3 gF hpost
  cases hrest
  split at hfield
  · cases hfield
  rename_i c1 gm2 hconc
  cases hfield
  split at hconc
  · cases hconc
  rename_i n1 gm3 hinner
  split at hconc
  · cases hconc
  rename_i gm4 hreg
  cases hconc
  have hHm3 : hasDecl gm3 H [U] :=
    replaceTypesInNamed_preserves str _ _ (fun ga => hasDecl ga H [U]) hS (stepDecl H [U])
      _ _ gm _ _ (by simp only [instancesSatisfy]; exact hwfField.2) hsU hHm hinner
  obtain ⟨dH, hdH, hgm1⟩ := addGenericUsage_single str H U A _ _ gm3 gm1
    (by simp only [Named.obj]; exact hHn) hA hHm3 hreg
  have hUm1 : hasUsage gm1 H [U] (str A) [(U.String, A)] := by
    obtain ⟨d0, hd0, hd0p⟩ := hHm3
    rw [hdH] at hd0
    cases hd0
    rw [hgm1]
    exact ⟨_, _, goLookup_goInsert_same _ _ _, hd0p, goLookup_goInsert_same _ _ _, rfl⟩
  have hUA : hasUsage gA H [U] (str A) [(U.String, A)] :=
    replaceTypesInVars_preserves str _ _ (fun ga => hasUsage ga H [U] (str A) [(U.String, A)])
      hS stepUsage _ _ gm1 _ _ hwfPost hsT hUm1 hpost
  -- the final registration of the usage of `G`
  obtain ⟨dG, hdG, hg1⟩ := addGenericUsage_single str G T A _ _ gA g1
    (by simp only [Named.obj]) hA hGA husage
  obtain ⟨dG0, hdG0, hdG0p⟩ := hGA
  rw [hdG] at hdG0
  cases hdG0
  constructor
  · obtain ⟨dH1, uH1, h1, h2, h3, h4⟩ := hUA
    refine ⟨str A, ?_⟩
    by_cases hGH : G = H
    · subst hGH
      rw [hdG] at h1
      cases h1
      rw [hdG0p] at h2
      cases h2
      rw [hg1]
      exact ⟨_, _, usageKey_single str T A, goLookup_goInsert_same _ _ _,
        goLookup_goInsert_same _ _ _, rfl⟩
    · rw [hg1]
      exact ⟨dH1, uH1, usageKey_single str U A,
        by rw [goLookup_goInsert_other _ _ _ _ hGH]; exact h1, h3, h4⟩
  · rw [hg1]
    refine ⟨str A, _, _, usageKey_single str T A, goLookup_goInsert_same _ _ _,
      goLookup_goInsert_same _ _ _, rfl, ?_⟩
    rfl

theorem nested_instantiation_witness :
    (∃ kH dH uH, usageKey typeString [("U", .Basic "int")] [⟨"U"⟩] = .ok kH ∧
        goLookup sampleRegistryGHInt "H" = some dH ∧
        goLookup dH.usages kH = some uH ∧ uH.typeMap = [("U", .Basic "int")]) ∧
      (∃ kG dG uG, usageKey typeString [("T", .Basic "int")] [⟨"T"⟩] = .ok kG ∧
        goLookup sampleRegistryGHInt "G" = some dG ∧
        goLookup dG.usages kG = some uG ∧ uG.typeMap = [("T", .Basic "int")] ∧
        uG.typ = sampleOuterInt) :=
  nested_instantiation typeString sampleRegistryGH "G" "H" ⟨"T"⟩ ⟨"U"⟩ (.Basic "int")
    [.mk "n" (.Basic "int")] [.mk "p" (.Pointer (.TypeParam ⟨"T"⟩))] "h"
    (.mk ⟨"H"⟩ (.Struct (.mk [.mk "v" (.TypeParam ⟨"U"⟩)] [])) []) [] sampleOuterInt
    sampleRegistryGHInt ⟨_, rfl, rfl⟩ ⟨_, rfl, rfl⟩ rfl rfl
    (by simp [instancesSatisfy, instancesSatisfyVars, instanceWellFormed, valuesDistinguished,
      goKeys, Ty.isTypeParam, TypeParam.String, Named.obj])
    rfl

/-! ## Registry operations -/

theorem stringParams_of_bound (str : Ty → String) (m : TypeMap) (ps : List TypeParam)
    (hb : ∀ p ∈ ps, (goLookup m p.String).isSome = true) :
    stringParams str m ps = .ok (stringForms str m ps) := by
  induction ps with
  | nil => rfl
  | cons p ps ih =>
    obtain ⟨t, ht⟩ := Option.isSome_iff_exists.mp (hb p (by simp))
    rw [stringForms_cons_of_bound str m p ps t ht]
    simp only [stringParams, ht, ih (fun q hq => hb q (List.mem_cons_of_mem _ hq))]

theorem usageKey_of_bound (str : Ty → String) (m : TypeMap) (ps : List TypeParam)
    (hb : ∀ p ∈ ps, (goLookup m p.String).isSome = true) :
    usageKey str m ps = .ok (",".intercalate (stringForms str m ps)) := by
  simp only [usageKey, stringParams_of_bound str m ps hb]

/-- C11: evaluation of the call sequence `addGenericDecl` of `Tag` with
parameter `U`, then `addGenericUsage` of `Tag` with the map `U -> []T`, from
the empty registry: both calls return, and the registry stores under the key
`[]T` a usage whose map holds the type parameter `T` as the element of a
slice. -/
theorem addGenericUsage_stores_nested_param :
    addGenericUsage typeString ⟨"Tag"⟩ (.ConcreteNamed sampleTagOfSlice)
        [("U", .Slice (.TypeParam ⟨"T"⟩))] (addGenericDecl ⟨"Tag"⟩ (.Basic "Tag") [⟨"U"⟩] []) =
      .ok [("Tag", { name := "Tag", typ := .Basic "Tag", typeParams := [⟨"U"⟩],
                     usages := [("[]T", { typeMap := [("U", .Slice (.TypeParam ⟨"T"⟩))],
                                          typ := .ConcreteNamed sampleTagOfSlice })] })] ∧
      typeParamsInMap [("U", .Slice (.TypeParam ⟨"T"⟩))] = [⟨"T"⟩] :=
  ⟨rfl, by decide⟩

/-- C12: for a map `sigma` none of whose values is a type parameter and
which binds every parameter of the declaration registered under the name of
the symbol, `addGenericUsage` fails exactly when no declaration is
registered under that name; when it returns, the declaration of that name
holds, under `usageKey` of `sigma`, the usage made of `sigma` and the
instantiated type, its other usage entries and its other fields are as
before, and every other declaration is as before. -/
theorem addGenericUsage_ground (str : Ty → String) (genObj : Object) (typ : Ty)
    (sigma : TypeMap) (g : Generics)
    (hng : ∀ kv ∈ sigma, kv.2.isTypeParam = false)
    (hbind : ∀ d, goLookup g genObj.name = some d →
      ∀ p ∈ d.typeParams, (goLookup sigma p.String).isSome = true) :
    ((∃ e, addGenericUsage str genObj typ sigma g = .error e) ↔
        goLookup g genObj.name = none) ∧
      (∀ g1, addGenericUsage str genObj typ sigma g = .ok g1 →
        ∃ d key d1, goLookup g genObj.name = some d ∧
          usageKey str sigma d.typeParams = .ok key ∧
          goLookup g1 genObj.name = some d1 ∧
          goLookup d1.usages key = some { typeMap := sigma, typ := typ } ∧
          (∀ k, k ≠ key → goLookup d1.usages k = goLookup d.usages k) ∧
          d1.name = d.name ∧ d1.typ = d.typ ∧ d1.typeParams = d.typeParams ∧
          (∀ N, N ≠ genObj.name → goLookup g1 N = goLookup g N)) := by
  have hany : sigma.any (fun kv => kv.2.isTypeParam) = false := by
    rw [List.any_eq_false]
    intro kv hkv
    simp [hng kv hkv]
  cases hd : goLookup g genObj.name with
  | none =>
    have herr : addGenericUsage str genObj typ sigma g =
        .error (.declarationNotFound genObj.name) := by
      simp [addGenericUsage, hany, hd]
    refine ⟨⟨fun _ => rfl, fun _ => ⟨_, herr⟩⟩, ?_⟩
    intro g1 h
    rw [herr] at h
    cases h
  | some d =>
    have hkey := usageKey_of_bound str sigma d.typeParams (hbind d hd)
    have hok : addGenericUsage str genObj typ sigma g =
        .ok (goInsert g genObj.name (GenericDecl.mk d.name d.typ d.typeParams
          (goInsert d.usages (",".intercalate (stringForms str sigma d.typeParams))
            (GenericUsage.mk sigma typ)))) := by
      simp [addGenericUsage, hany, hd, hkey]
    refine ⟨⟨fun ⟨e, he⟩ => ?_, fun h => by cases h⟩, ?_⟩
    · rw [hok] at he
      cases he
    · intro g1 h
      rw [hok] at h
      cases h
      refine ⟨d, _, _, rfl, hkey, goLookup_goInsert_same _ _ _, goLookup_goInsert_same _ _ _,
        ?_, rfl, rfl, rfl, ?_⟩
      · intro k hk
        exact goLookup_goInsert_other _ _ _ _ (fun e => hk e.symm)
      · intro N hN
        exact goLookup_goInsert_other _ _ _ _ (fun e => hN e.symm)

theorem addGenericUsage_ground_witness :
    ∃ d key d1, goLookup sampleRegistryH "H" = some d ∧
      usageKey typeString [("U", .Basic "int")] d.typeParams = .ok key ∧
      goLookup sampleRegistryHInt "H" = some d1 ∧
      goLookup d1.usages key =
        some { typeMap := [("U", .Basic "int")], typ := .ConcreteNamed sampleInnerInt } ∧
      (∀ k, k ≠ key → goLookup d1.usages k = goLookup d.usages k) ∧
      d1.name = d.name ∧ d1.typ = d.typ ∧ d1.typeParams = d.typeParams ∧
      (∀ N, N ≠ "H" → goLookup sampleRegistryHInt N = goLookup sampleRegistryH N) :=
  (addGenericUsage_ground typeString ⟨"H"⟩ (.ConcreteNamed sampleInnerInt)
    [("U", .Basic "int")] sampleRegistryH (by decide)
    (by
      intro d hd p hp
      have hd1 : d = { name := "H", typ := .Basic "H", typeParams := [⟨"U"⟩], usages := [] } := by
        have h0 : goLookup sampleRegistryH (Object.mk "H").name =
            some { name := "H", typ := .Basic "H", typeParams := [⟨"U"⟩], usages := [] } := rfl
        rw [h0] at hd
        injection hd with hd
        exact hd.symm
      subst hd1
      simp only [List.mem_singleton] at hp
      subst hp
      rfl)).2 sampleRegistryHInt rfl

/-! ## Substitution on structures and compound types -/

theorem replaceTypesInVars_pointwise (str : Ty → String) (sigma : TypeMap) (vars : List Var) :
    ∀ (g : Generics) (vars1 : List Var) (g1 : Generics),
      replaceTypesInVars str vars sigma g = .ok (vars1, g1) →
      List.Forall₂ (fun f f1 => f1.name = f.name ∧
        ∃ gi gj, replaceTypes str f.typ sigma gi = .ok (f1.typ, gj)) vars vars1 := by
  induction vars with
  | nil =>
    intro g vars1 g1 h
    simp only [replaceTypesInVars] at h
    cases h
    exact List.Forall₂.nil
  | cons v rest ih =>
    intro g vars1 g1 h
    cases v with
    | mk name typ =>
      simp only [replaceTypesInVars] at h
      cases h1 : replaceTypes str typ sigma g with
      | error e => simp [h1] at h
      | ok p1 =>
        obtain ⟨t1, gm⟩ := p1
        simp only [h1] at h
        cases h2 : replaceTypesInVars str rest sigma gm with
        | error e => simp [h2] at h
        | ok p2 =>
          obtain ⟨rest1, g2⟩ := p2
          simp only [h2] at h
          cases h
          exact List.Forall₂.cons ⟨rfl, g, gm, h1⟩ (ih gm rest1 g1 h2)

/-- C15: whenever `replaceTypesInStruct` returns on a structure and a map,
the result has the tags of the structure and as many fields, in the same
order; the i-th field has the name of the i-th field of the structure and
its type is the result of `replaceTypes` on the type of that field. -/
theorem replaceTypesInStruct_spec (str : Ty → String) (s : Struct) (sigma : TypeMap)
    (g : Generics) (s1 : Struct) (g1 : Generics)
    (h : replaceTypesInStruct str s sigma g = .ok (s1, g1)) :
    s1.tags = s.tags ∧ s1.fields.length = s.fields.length ∧
      List.Forall₂ (fun f f1 => f1.name = f.name ∧
        ∃ gi gj, replaceTypes str f.typ sigma gi = .ok (f1.typ, gj)) s.fields s1.fields := by
  cases s with
  | mk fields tags =>
    simp only [replaceTypesInStruct] at h
    cases h1 : replaceTypesInVars str fields sigma g with
    | error e => simp [h1] at h
    | ok p1 =>
      obtain ⟨fields1, gm⟩ := p1
      simp only [h1] at h
      cases h
      have hall := replaceTypesInVars_pointwise str sigma fields g fields1 g1 h1
      exact ⟨rfl, hall.length_eq.symm, hall⟩

theorem replaceTypesInStruct_spec_witness :
    (Struct.mk [.mk "v" (.Basic "int"), .mk "w" (.Slice (.Basic "string"))] ["a", "b"]).tags =
        (Struct.mk [.mk "v" (.TypeParam ⟨"T"⟩), .mk "w" (.Slice (.TypeParam ⟨"U"⟩))]
          ["a", "b"]).tags ∧
      (Struct.mk [.mk "v" (.Basic "int"), .mk "w" (.Slice (.Basic "string"))]
          ["a", "b"]).fields.length =
        (Struct.mk [.mk "v" (.TypeParam ⟨"T"⟩), .mk "w" (.Slice (.TypeParam ⟨"U"⟩))]
          ["a", "b"]).fields.length ∧
      List.Forall₂ (fun f f1 => f1.name = f.name ∧
        ∃ gi gj, replaceTypes typeString f.typ
          [("T", .Basic "int"), ("U", .Basic "string")] gi = .ok (f1.typ, gj))
        (Struct.mk [.mk "v" (.TypeParam ⟨"T"⟩), .mk "w" (.Slice (.TypeParam ⟨"U"⟩))]
          ["a", "b"]).fields
        (Struct.mk [.mk "v" (.Basic "int"), .mk "w" (.Slice (.Basic "string"))]
          ["a", "b"]).fields :=
  replaceTypesInStruct_spec typeString
    (.mk [.mk "v" (.TypeParam ⟨"T"⟩), .mk "w" (.Slice (.TypeParam ⟨"U"⟩))] ["a", "b"])
    [("T", .Basic "int"), ("U", .Basic "string")] []
    (.mk [.mk "v" (.Basic "int"), .mk "w" (.Slice (.Basic "string"))] ["a", "b"]) [] rfl

theorem replaceTypes_unary (str : Ty → String) (sigma : TypeMap) (g : Generics)
    (wrap : Ty → Ty) (elem : Ty)
    (hw : replaceTypes str (wrap elem) sigma g =
      match replaceTypes str elem sigma g with
      | .error e => .error e
      | .ok (b, g1) => .ok (wrap b, g1))
    (r : Ty) (g1 : Generics) (h : replaceTypes str (wrap elem) sigma g = .ok (r, g1)) :
    ∃ b, replaceTypes str elem sigma g = .ok (b, g1) ∧ r = wrap b := by
  rw [hw] at h
  cases h1 : replaceTypes str elem sigma g with
  | error e => simp [h1] at h
  | ok p1 =>
    obtain ⟨b, gm⟩ := p1
    simp only [h1] at h
    cases h
    exact ⟨b, rfl, rfl⟩

/-- C16: whenever `replaceTypes` returns on a pointer, slice, array or
channel type, the result is of the same variant, with the same array length
or channel direction, and its element type is the result of `replaceTypes`
on the element type; on a map type the key type is substituted first and
the element type after it; on a basic type, a tuple or a concrete
instantiation of a signature (the variants without a case in the type
switch) `replaceTypes` returns its input and the registry as they are. -/
theorem replaceTypes_compound (str : Ty → String) (sigma : TypeMap) (g : Generics) :
    (∀ base r g1, replaceTypes str (.Pointer base) sigma g = .ok (r, g1) →
        ∃ b, replaceTypes str base sigma g = .ok (b, g1) ∧ r = .Pointer b) ∧
      (∀ elem r g1, replaceTypes str (.Slice elem) sigma g = .ok (r, g1) →
        ∃ b, replaceTypes str elem sigma g = .ok (b, g1) ∧ r = .Slice b) ∧
      (∀ len elem r g1, replaceTypes str (.Array len elem) sigma g = .ok (r, g1) →
        ∃ b, replaceTypes str elem sigma g = .ok (b, g1) ∧ r = .Array len b) ∧
      (∀ dir elem r g1, replaceTypes str (.Chan dir elem) sigma g = .ok (r, g1) →
        ∃ b, replaceTypes str elem sigma g = .ok (b, g1) ∧ r = .Chan dir b) ∧
      (∀ key elem r g2, replaceTypes str (.Map key elem) sigma g = .ok (r, g2) →
        ∃ k g1 v, replaceTypes str key sigma g = .ok (k, g1) ∧
          replaceTypes str elem sigma g1 = .ok (v, g2) ∧ r = .Map k v) ∧
      (∀ name, replaceTypes str (.Basic name) sigma g = .ok (.Basic name, g)) ∧
      (∀ vars, replaceTypes str (.Tuple vars) sigma g = .ok (.Tuple vars, g)) ∧
      (∀ c, replaceTypes str (.ConcreteSignature c) sigma g =
        .ok (.ConcreteSignature c, g)) := by
  refine ⟨?_, ?_, ?_, ?_, ?_, ?_, ?_, ?_⟩
  · intro base r g1 h
    exact replaceTypes_unary str sigma g .Pointer base
      (by simp only [replaceTypes]) r g1 h
  · intro elem r g1 h
    exact replaceTypes_unary str sigma g .Slice elem
      (by simp only [replaceTypes]) r g1 h
  · intro len elem r g1 h
    exact replaceTypes_unary str sigma g (.Array len) elem
      (by simp only [replaceTypes]) r g1 h
  · intro dir elem r g1 h
    exact replaceTypes_unary str sigma g (.Chan dir) elem
      (by simp only [replaceTypes]) r g1 h
  · intro key elem r g2 h
    simp only [replaceTypes] at h
    cases h1 : replaceTypes str key sigma g with
    | error e => simp [h1] at h
    | ok p1 =>
      obtain ⟨k, gm⟩ := p1
      simp only [h1] at h
      cases h2 : replaceTypes str elem sigma gm with
      | error e => simp [h2] at h
      | ok p2 =>
        obtain ⟨v, gn⟩ := p2
        simp only [h2] at h
        cases h
        exact ⟨k, gm, v, rfl, h2, rfl⟩
  · intro name
    simp only [replaceTypes]
  · intro vars
    simp only [replaceTypes]
  · intro c
    simp only [replaceTypes]

theorem replaceTypes_compound_witness :
    ∃ k g1 v, replaceTypes typeString (.TypeParam ⟨"K"⟩)
          [("K", .Basic "string"), ("V", .Basic "int")] [] = .ok (k, g1) ∧
        replaceTypes typeString (.Array 4 (.TypeParam ⟨"V"⟩))
          [("K", .Basic "string"), ("V", .Basic "int")] g1 = .ok (v, []) ∧
        Ty.Map (.Basic "string") (.Array 4 (.Basic "int")) = .Map k v :=
  (replaceTypes_compound typeString [("K", .Basic "string"), ("V", .Basic "int")]
    []).2.2.2.2.1 (.TypeParam ⟨"K"⟩) (.Array 4 (.TypeParam ⟨"V"⟩))
    (.Map (.Basic "string") (.Array 4 (.Basic "int"))) [] rfl

/-- C14: evaluation of `replaceTypes` with the empty map on the signature
of `func (b Box) Len() int`, in which no type parameter occurs: the call
returns a signature without receiver. -/
theorem replaceTypes_empty_map_drops_receiver :
    typeParamsIn (.Signature sampleMethodPlain) = [] ∧
      sampleMethodPlain.recv = some (.mk "b" (.Basic "Box")) ∧
      replaceTypes typeString (.Signature sampleMethodPlain) [] [] =
        .ok (.Signature (.mk none [] [.mk "" (.Basic "int")] false []), []) :=
  ⟨by decide, rfl, rfl⟩

/-! ## Instantiation hook and reference rewriting -/

/-- C18: evaluation of the hook on `Box[int, string]` for the declaration
`type Box[T] struct { v T }`: `createTypeMap` records the error with
expected 1 and actual 2 and returns no map; `concreteType` then substitutes
with the nil map and fails on the type parameter `T`. -/
theorem concreteType_arity_mismatch :
    createTypeMap sampleRawExpr [.Ident "int", .Ident "string"] [⟨"T"⟩] sampleChecker =
        .ok (none, { generics := sampleChecker.generics,
                     errors := [.wrongNumberOfTypeParameters 1 2] }) ∧
      concreteType typeString sampleRawExpr (fun _ => none) (.Ident "Box")
          [.Ident "int", .Ident "string"] (.Named sampleBoxNamed) sampleChecker =
        .error (.undefinedTypeParameter "T") :=
  ⟨rfl, rfl⟩

/-- C17: the callback of the reference-rewriting pass on an index
expression `x[index]`: when `x` is an identifier whose name is registered,
the node becomes the identifier named by the name of `x`, two underscores
and the printed text of `index` in which every period is replaced by an
underscore and every other character is kept; when `x` is no identifier or
its name is not registered, the node stays as it is. -/
theorem replaceGenericIdents_indexExpr (printNode : Node → String) (g : Generics)
    (x index : Node) :
    (∀ name, x = .Ident name → (goLookup g name).isSome = true →
        replaceGenericIdents printNode g (.IndexExpr x index) =
          .ok (.Ident (name ++ "__" ++
            String.mk ((printNode index).data.map (fun c => if c = '.' then '_' else c))))) ∧
      ((∀ name, x = .Ident name → goLookup g name = none) →
        replaceGenericIdents printNode g (.IndexExpr x index) = .ok (.IndexExpr x index)) := by
  constructor
  · intro name hx hreg
    subst hx
    obtain ⟨d, hd⟩ := Option.isSome_iff_exists.mp hreg
    simp only [replaceGenericIdents, hd, concreteTypeExpr, List.map, intercalate_singleton,
      replacePeriods]
  · intro hno
    cases x with
    | Ident name => simp only [replaceGenericIdents, hno name rfl]
    | ArrayType len elt => simp only [replaceGenericIdents]
    | IndexExpr x1 i1 => simp only [replaceGenericIdents]
    | TypeParamExpr x1 ps => simp only [replaceGenericIdents]
    | Other kind children => simp only [replaceGenericIdents]

theorem replaceGenericIdents_indexExpr_witness :
    samplePrintNode (.Other "SelectorExpr" [.Ident "time", .Ident "Time"]) = "time.Time" ∧
      replaceGenericIdents samplePrintNode sampleChecker.generics
          (.IndexExpr (.Ident "Box") (.Other "SelectorExpr" [.Ident "time", .Ident "Time"])) =
        .ok (.Ident "Box__time_Time") ∧
      replaceGenericIdents samplePrintNode sampleChecker.generics
          (.IndexExpr (.Ident "Box") (.Other "SelectorExpr" [.Ident "time", .Ident "Time"])) =
        .ok (.Ident ("Box" ++ "__" ++ String.mk ((samplePrintNode
          (.Other "SelectorExpr" [.Ident "time", .Ident "Time"])).data.map
            (fun c => if c = '.' then '_' else c)))) :=
  ⟨rfl, rfl, (replaceGenericIdents_indexExpr samplePrintNode sampleChecker.generics
    (.Ident "Box") (.Other "SelectorExpr" [.Ident "time", .Ident "Time"])).1 "Box" rfl rfl⟩

/-! ## Monotonicity of the registry -/

theorem registryExtends_refl (g : Generics) : registryExtends g g :=
  fun _ d hd => ⟨d, hd, fun _ hk => hk⟩

theorem goLookup_goInsert_isSome {α : Type} (m : List (String × α)) (k k1 : String) (v : α)
    (h : (goLookup m k1).isSome = true) : (goLookup (goInsert m k v) k1).isSome = true := by
  by_cases hk : k = k1
  · subst hk
    rw [goLookup_goInsert_same]
    rfl
  · rw [goLookup_goInsert_other _ _ _ _ hk]
    exact h

theorem addGenericUsage_extends (str : Ty → String) (genObj : Object) (typ : Ty)
    (sigma : TypeMap) (g g1 : Generics) (h : addGenericUsage str genObj typ sigma g = .ok g1) :
    registryExtends g g1 := by
  unfold addGenericUsage at h
  split at h
  · cases h
    exact registryExtends_refl g
  · split at h
    · cases h
    · rename_i d0 hd0
      split at h
      · cases h
      · rename_i key hkey
        cases h
        intro N d hd
        by_cases hN : genObj.name = N
        · subst hN
          rw [hd0] at hd
          cases hd
          exact ⟨_, goLookup_goInsert_same _ _ _,
            fun k hk => goLookup_goInsert_isSome _ _ _ _ hk⟩
        · exact ⟨d, by rw [goLookup_goInsert_other _ _ _ _ hN]; exact hd, fun _ hk => hk⟩

/-- C19, as stated, fails: in a registry where `H` holds the usage keyed
`int`, the call `addGenericDecl` of `H` returns a registry in which `H` is
registered without that usage key. -/
theorem addGenericDecl_resets_usages :
    ¬ registryExtends sampleRegistryHInt
      (addGenericDecl ⟨"H"⟩ (.Basic "H") [⟨"U"⟩] sampleRegistryHInt) := by
  intro h
  obtain ⟨d1, hd1, hk⟩ := h "H" _ rfl
  have h1 : goLookup (addGenericDecl ⟨"H"⟩ (.Basic "H") [⟨"U"⟩] sampleRegistryHInt) "H" =
      some { name := "H", typ := .Basic "H", typeParams := [⟨"U"⟩], usages := [] } := rfl
  rw [h1] at hd1
  cases hd1
  have := hk "int" rfl
  simp [goLookup] at this

/-- C19, amended: a call of `addGenericUsage` that returns keeps every
registered declaration name and every usage key of every declaration; a
call of `addGenericDecl` keeps every registered declaration name, leaves
every declaration under another name than the declared one as it is, and
keeps every usage key when the declared name was not registered before. -/
theorem registry_monotone (str : Ty → String) (genObj obj : Object) (typ objType : Ty)
    (sigma : TypeMap) (typeParams : List TypeParam) (g g1 : Generics)
    (h : addGenericUsage str genObj typ sigma g = .ok g1) :
    registryExtends g g1 ∧
      (∀ N, (goLookup g N).isSome = true →
        (goLookup (addGenericDecl obj objType typeParams g) N).isSome = true) ∧
      (∀ N, N ≠ obj.name →
        goLookup (addGenericDecl obj objType typeParams g) N = goLookup g N) ∧
      (goLookup g obj.name = none →
        registryExtends g (addGenericDecl obj objType typeParams g)) := by
  refine ⟨addGenericUsage_extends str genObj typ sigma g g1 h, ?_, ?_, ?_⟩
  · intro N hN
    exact goLookup_goInsert_isSome _ _ _ _ hN
  · intro N hN
    exact goLookup_goInsert_other _ _ _ _ (fun e => hN e.symm)
  · intro hnone N d hd
    have hN : obj.name ≠ N := by
      intro e
      rw [e] at hnone
      rw [hnone] at hd
      cases hd
    exact ⟨d, by
      unfold addGenericDecl
      rw [goLookup_goInsert_other _ _ _ _ hN]
      exact hd, fun _ hk => hk⟩

theorem registry_monotone_witness :
    registryExtends sampleRegistryHInt
        [("H", { name := "H", typ := .Basic "H", typeParams := [⟨"U"⟩],
                 usages := [("int", { typeMap := [("U", .Basic "int")],
                                      typ := .ConcreteNamed sampleInnerInt }),
                            ("string", { typeMap := [("U", .Basic "string")],
                                         typ := .Basic "H" })] })] ∧
      (∀ N, (goLookup sampleRegistryHInt N).isSome = true →
        (goLookup (addGenericDecl ⟨"Box"⟩ (.Basic "Box") [⟨"T"⟩] sampleRegistryHInt)
          N).isSome = true) ∧
      (∀ N, N ≠ "Box" →
        goLookup (addGenericDecl ⟨"Box"⟩ (.Basic "Box") [⟨"T"⟩] sampleRegistryHInt) N =
          goLookup sampleRegistryHInt N) ∧
      (goLookup sampleRegistryHInt "Box" = none →
        registryExtends sampleRegistryHInt
          (addGenericDecl ⟨"Box"⟩ (.Basic "Box") [⟨"T"⟩] sampleRegistryHInt)) :=
  registry_monotone typeString ⟨"H"⟩ ⟨"Box"⟩ (.Basic "H") (.Basic "Box")
    [("U", .Basic "string")] [⟨"T"⟩] sampleRegistryHInt _ rfl

/-! ## Usage keys -/

theorem commasNested_comma (d : Nat) (cs : List Char) :
    commasNested d (',' :: cs) = (d != 0 && commasNested d cs) := by
  have h1 : ¬ ((',' : Char) = '(' ∨ (',' : Char) = '[' ∨ (',' : Char) = Char.ofNat 123) := by
    decide
  have h2 : ¬ ((',' : Char) = ')' ∨ (',' : Char) = ']' ∨ (',' : Char) = Char.ofNat 125) := by
    decide
  simp only [commasNested, if_neg h1, if_neg h2, if_true]

/-- Two texts that agree after a prefix with nested commas followed by a
comma have the same prefix and the same remainder. -/
theorem comma_split (x : List Char) :
    ∀ (d : Nat) (y s t : List Char), commasNested d x = true → commasNested d y = true →
      x ++ ',' :: s = y ++ ',' :: t → x = y ∧ s = t := by
  induction x with
  | nil =>
    intro d y s t hx hy h
    cases y with
    | nil => simpa using h
    | cons c y =>
      simp only [List.nil_append, List.cons_append, List.cons.injEq] at h
      obtain ⟨hc, _⟩ := h
      subst hc
      simp only [commasNested, beq_iff_eq] at hx
      subst hx
      rw [commasNested_comma] at hy
      simp at hy
  | cons c x ih =>
    intro d y s t hx hy h
    cases y with
    | nil =>
      simp only [List.nil_append, List.cons_append, List.cons.injEq] at h
      obtain ⟨hc, _⟩ := h
      subst hc
      simp only [commasNested, beq_iff_eq] at hy
      subst hy
      rw [commasNested_comma] at hx
      simp at hx
    | cons e y =>
      simp only [List.cons_append, List.cons.injEq] at h
      obtain ⟨hce, hrest⟩ := h
      subst hce
      simp only [commasNested] at hx hy
      split_ifs at hx hy with h1 h2 h3
      · obtain ⟨e1, e2⟩ := ih _ y s t hx hy hrest
        exact ⟨by rw [e1], e2⟩
      · simp only [Bool.and_eq_true] at hx hy
        obtain ⟨e1, e2⟩ := ih _ y s t hx.2 hy.2 hrest
        exact ⟨by rw [e1], e2⟩
      · simp only [Bool.and_eq_true] at hx hy
        obtain ⟨e1, e2⟩ := ih _ y s t hx.2 hy.2 hrest
        exact ⟨by rw [e1], e2⟩
      · obtain ⟨e1, e2⟩ := ih _ y s t hx hy hrest
        exact ⟨by rw [e1], e2⟩

theorem intercalate_commas_injective (l1 l2 : List String) (hlen : l1.length = l2.length)
    (h1 : ∀ s ∈ l1, commasNested 0 s.data = true)
    (h2 : ∀ s ∈ l2, commasNested 0 s.data = true)
    (h : ",".intercalate l1 = ",".intercalate l2) : l1 = l2 := by
  induction l1 generalizing l2 with
  | nil =>
    cases l2 with
    | nil => rfl
    | cons b l2 => simp at hlen
  | cons a l1 ih =>
    cases l2 with
    | nil => simp at hlen
    | cons b l2 =>
      cases l1 with
      | nil =>
        cases l2 with
        | nil =>
          simp only [intercalate_singleton] at h
          rw [h]
        | cons b2 l2 => simp at hlen
      | cons a2 l1 =>
        cases l2 with
        | nil => simp at hlen
        | cons b2 l2 =>
          rw [intercalate_cons_cons, intercalate_cons_cons] at h
          have hd := congrArg String.data h
          simp only [String.data_append] at hd
          simp only [List.append_assoc, List.cons_append, List.nil_append] at hd
          obtain ⟨e1, e2⟩ := comma_split _ 0 _ _ _ (h1 a (by simp)) (h2 b (by simp)) hd
          have hab : a = b := String.ext e1
          have hrest : ",".intercalate (a2 :: l1) = ",".intercalate (b2 :: l2) := String.ext e2
          have := ih (b2 :: l2) (by simpa using hlen)
            (fun s hs => h1 s (List.mem_cons_of_mem _ hs))
            (fun s hs => h2 s (List.mem_cons_of_mem _ hs)) hrest
          rw [hab, this]

theorem mem_stringForms (str : Ty → String) (m : TypeMap) (ps : List TypeParam) (f : String)
    (hf : f ∈ stringForms str m ps) :
    ∃ p ∈ ps, ∃ t, goLookup m p.String = some t ∧ f = str t := by
  simp only [stringForms, List.mem_filterMap, Option.map_eq_some'] at hf
  obtain ⟨p, hp, t, ht, e⟩ := hf
  exact ⟨p, hp, t, ht, e.symm⟩

theorem stringForms_eq_iff (str : Ty → String) (s1 s2 : TypeMap) (ps : List TypeParam)
    (hb1 : ∀ p ∈ ps, (goLookup s1 p.String).isSome = true)
    (hb2 : ∀ p ∈ ps, (goLookup s2 p.String).isSome = true) :
    stringForms str s1 ps = stringForms str s2 ps ↔
      ∀ p ∈ ps, (goLookup s1 p.String).map str = (goLookup s2 p.String).map str := by
  induction ps with
  | nil => simp [stringForms]
  | cons p ps ih =>
    obtain ⟨t1, ht1⟩ := Option.isSome_iff_exists.mp (hb1 p (by simp))
    obtain ⟨t2, ht2⟩ := Option.isSome_iff_exists.mp (hb2 p (by simp))
    rw [stringForms_cons_of_bound str s1 p ps t1 ht1,
      stringForms_cons_of_bound str s2 p ps t2 ht2, List.cons.injEq,
      ih (fun q hq => hb1 q (List.mem_cons_of_mem _ hq))
        (fun q hq => hb2 q (List.mem_cons_of_mem _ hq))]
    constructor
    · rintro ⟨e, hrest⟩ q hq
      rcases List.mem_cons.mp hq with rfl | hq
      · rw [ht1, ht2]
        simp [e]
      · exact hrest q hq
    · intro hall
      refine ⟨?_, fun q hq => hall q (List.mem_cons_of_mem _ hq)⟩
      have := hall p (by simp)
      rw [ht1, ht2] at this
      simpa using this

/-- C13: for every parameter list `ps` and maps `s1`, `s2` that bind every
parameter of `ps` to types in whose string forms every comma lies inside
brackets: `usageKey` returns the string forms of the bound types, in the
order of `ps`, joined by a comma, and the keys of `s1` and `s2` are equal
exactly when for every parameter of `ps` the string forms of its two
bindings are equal. -/
theorem usageKey_spec (str : Ty → String) (ps : List TypeParam) (s1 s2 : TypeMap)
    (hb1 : ∀ p ∈ ps, (goLookup s1 p.String).isSome = true)
    (hb2 : ∀ p ∈ ps, (goLookup s2 p.String).isSome = true)
    (hn1 : ∀ p ∈ ps, ∀ t, goLookup s1 p.String = some t → commasNested 0 (str t).data = true)
    (hn2 : ∀ p ∈ ps, ∀ t, goLookup s2 p.String = some t → commasNested 0 (str t).data = true) :
    usageKey str s1 ps = .ok (",".intercalate (stringForms str s1 ps)) ∧
      usageKey str s2 ps = .ok (",".intercalate (stringForms str s2 ps)) ∧
      (usageKey str s1 ps = usageKey str s2 ps ↔
        ∀ p ∈ ps, (goLookup s1 p.String).map str = (goLookup s2 p.String).map str) := by
  have k1 := usageKey_of_bound str s1 ps hb1
  have k2 := usageKey_of_bound str s2 ps hb2
  refine ⟨k1, k2, ?_⟩
  rw [k1, k2, ← stringForms_eq_iff str s1 s2 ps hb1 hb2]
  constructor
  · intro h
    injection h with h
    apply intercalate_commas_injective _ _ _ _ _ h
    · rw [stringForms_length str s1 ps hb1, stringForms_length str s2 ps hb2]
    · intro f hf
      obtain ⟨p, hp, t, ht, e⟩ := mem_stringForms str s1 ps f hf
      rw [e]
      exact hn1 p hp t ht
    · intro f hf
      obtain ⟨p, hp, t, ht, e⟩ := mem_stringForms str s2 ps f hf
      rw [e]
      exact hn2 p hp t ht
  · intro h
    rw [h]

theorem usageKey_spec_witness :
    usageKey typeString
        [("K", .Basic "string"), ("V", .Map (.Basic "int") (.Basic "bool"))] [⟨"K"⟩, ⟨"V"⟩] =
        .ok (",".intercalate (stringForms typeString
          [("K", .Basic "string"), ("V", .Map (.Basic "int") (.Basic "bool"))]
          [⟨"K"⟩, ⟨"V"⟩])) ∧
      usageKey typeString
        [("V", .Map (.Basic "int") (.Basic "bool")), ("K", .Basic "string"),
          ("W", .Basic "int")] [⟨"K"⟩, ⟨"V"⟩] =
        .ok (",".intercalate (stringForms typeString
          [("V", .Map (.Basic "int") (.Basic "bool")), ("K", .Basic "string"),
            ("W", .Basic "int")] [⟨"K"⟩, ⟨"V"⟩])) ∧
      (usageKey typeString
          [("K", .Basic "string"), ("V", .Map (.Basic "int") (.Basic "bool"))]
          [⟨"K"⟩, ⟨"V"⟩] =
        usageKey typeString
          [("V", .Map (.Basic "int") (.Basic "bool")), ("K", .Basic "string"),
            ("W", .Basic "int")] [⟨"K"⟩, ⟨"V"⟩] ↔
        ∀ p ∈ [(⟨"K"⟩ : TypeParam), ⟨"V"⟩],
          (goLookup [("K", Ty.Basic "string"), ("V", .Map (.Basic "int") (.Basic "bool"))]
            p.String).map typeString =
          (goLookup [("V", Ty.Map (.Basic "int") (.Basic "bool")), ("K", .Basic "string"),
            ("W", .Basic "int")] p.String).map typeString) :=
  usageKey_spec typeString [⟨"K"⟩, ⟨"V"⟩]
    [("K", .Basic "string"), ("V", .Map (.Basic "int") (.Basic "bool"))]
    [("V", .Map (.Basic "int") (.Basic "bool")), ("K", .Basic "string"), ("W", .Basic "int")]
    (by decide) (by decide)
    (by
      intro p hp t ht
      simp only [List.mem_cons, List.mem_singleton, List.not_mem_nil, or_false] at hp
      rcases hp with rfl | rfl
      · cases (Option.some.inj (Eq.trans (Eq.symm ht) (Eq.refl (some (Ty.Basic "string")))))
        decide
      · cases (Option.some.inj (Eq.trans (Eq.symm ht)
          (Eq.refl (some (Ty.Map (.Basic "int") (.Basic "bool"))))))
        decide)
    (by
      intro p hp t ht
      simp only [List.mem_cons, List.mem_singleton, List.not_mem_nil, or_false] at hp
      rcases hp with rfl | rfl
      · cases (Option.some.inj (Eq.trans (Eq.symm ht) (Eq.refl (some (Ty.Basic "string")))))
        decide
      · cases (Option.some.inj (Eq.trans (Eq.symm ht)
          (Eq.refl (some (Ty.Map (.Basic "int") (.Basic "bool"))))))
        decide)

/-! ## Expansion of declaration groups -/

theorem insertionStep_perm {α : Type} (less : α → α → Bool) (x : α) (l : List α) :
    (insertionStep less x l).Perm (x :: l) := by
  induction l with
  | nil => exact List.Perm.refl _
  | cons y ys ih =>
    simp only [insertionStep]
    split
    · exact (List.Perm.cons y ih).trans (List.Perm.swap x y ys)
    · exact List.Perm.refl _

theorem insertionSort_perm {α : Type} (less : α → α → Bool) (l : List α) :
    (insertionSort less l).Perm l := by
  have key : ∀ (l acc : List α),
      (l.foldl (fun sorted x => insertionStep less x sorted) acc).Perm (acc ++ l) := by
    intro l
    induction l with
    | nil =>
      intro acc
      simp
    | cons x l ih =>
      intro acc
      simp only [List.foldl_cons]
      exact (ih _).trans
        ((List.Perm.append_right l (insertionStep_perm less x acc)).trans
          (List.perm_middle.symm))
  unfold insertionSort
  exact (List.reverse_perm _).trans (by simpa using key l [])

theorem generateConcreteTypesLoop_nongeneric (str : Ty → String) (g : Generics)
    (specs : List Spec) :
    ∀ (acc : List Spec) (used : Bool),
      (∀ s, Spec.TypeSpec s ∈ specs → goLookup g s.name = none) →
      generateConcreteTypesLoop str g specs (acc, used) =
        .ok (acc ++ specs, used || !specs.isEmpty) := by
  induction specs with
  | nil =>
    intro acc used _
    simp [generateConcreteTypesLoop]
  | cons spec rest ih =>
    intro acc used hng
    have hrest : ∀ s, Spec.TypeSpec s ∈ rest → goLookup g s.name = none :=
      fun s hs => hng s (List.mem_cons_of_mem _ hs)
    cases spec with
    | Other n =>
      simp only [generateConcreteTypesLoop]
      rw [ih _ _ hrest]
      simp
    | TypeSpec typeSpec =>
      simp only [generateConcreteTypesLoop, hng typeSpec (List.mem_cons_self _ _)]
      rw [ih _ _ hrest]
      simp

/-- C20, as stated, fails: on the group `type ( B int; A int )`, with no
generic registered, the expansion (with the insertion sort that `sort.Slice`
runs on short slices) yields the group `type ( A int; B int )`. -/
theorem generateConcreteTypes_reorders :
    generateConcreteTypes typeString insertionSort [] sampleGroup =
        .ok (some { tok := "type",
                    specs := [.TypeSpec { name := "A", typeParams := none, type := .Ident "int" },
                              .TypeSpec { name := "B", typeParams := none,
                                          type := .Ident "int" }] }) ∧
      sampleGroup.specs ≠
        [.TypeSpec { name := "A", typeParams := none, type := .Ident "int" },
         .TypeSpec { name := "B", typeParams := none, type := .Ident "int" }] := by
  constructor
  · simp [generateConcreteTypes, generateConcreteTypesLoop, sampleGroup, goLookup,
      insertionSort, insertionStep, specLess]
    decide
  · simp [sampleGroup]

/-- C20, amended: for every group none of whose type specifications names a
registered generic, the expansion replaces a non-empty group by a copy whose
specification list is the list of the group as `sort.Slice` orders it with
the comparison of type-specification names, a permutation of the list of the
group whenever the sort permutes its argument; an empty group is deleted. -/
theorem generateConcreteTypes_nongeneric (str : Ty → String)
    (sortSlice : (Spec → Spec → Bool) → List Spec → List Spec) (g : Generics) (n : GenDecl)
    (hng : ∀ s, Spec.TypeSpec s ∈ n.specs → goLookup g s.name = none) :
    (n.specs ≠ [] →
        generateConcreteTypes str sortSlice g n =
          .ok (some { tok := n.tok, specs := sortSlice specLess n.specs }) ∧
        ((∀ l, (sortSlice specLess l).Perm l) → (sortSlice specLess n.specs).Perm n.specs)) ∧
      (n.specs = [] → generateConcreteTypes str sortSlice g n = .ok none) := by
  have hloop := generateConcreteTypesLoop_nongeneric str g n.specs [] false hng
  constructor
  · intro hne
    refine ⟨?_, fun hperm => hperm n.specs⟩
    have hpos : n.specs.length > 0 := List.length_pos.mpr hne
    simp only [generateConcreteTypes, hloop, List.nil_append, hpos, if_true]
  · intro he
    rw [he] at hloop
    simp only [generateConcreteTypes, he, hloop]
    simp

theorem generateConcreteTypes_nongeneric_witness :
    (sampleGroup.specs ≠ [] →
        generateConcreteTypes typeString insertionSort sampleChecker.generics sampleGroup =
          .ok (some { tok := sampleGroup.tok,
                      specs := insertionSort specLess sampleGroup.specs }) ∧
        ((∀ l, (insertionSort specLess l).Perm l) →
          (insertionSort specLess sampleGroup.specs).Perm sampleGroup.specs)) ∧
      (sampleGroup.specs = [] →
        generateConcreteTypes typeString insertionSort sampleChecker.generics sampleGroup =
          .ok none) :=
  generateConcreteTypes_nongeneric typeString insertionSort sampleChecker.generics sampleGroup
    (by
      intro s hs
      simp only [sampleGroup, List.mem_cons, Spec.TypeSpec.injEq, List.mem_singleton,
        List.not_mem_nil, or_false] at hs
      rcases hs with rfl | rfl
      · rfl
      · rfl)

end Fo
